import Mathlib

/-!
# Verification of the site crawler (src/site_crawler/site_crawler.py)

Shallow embedding of the crawler's core: URL normalisation and scoping
(`normalise`, `same_domain`, wrapping CPython `urllib.parse.urlsplit` /
`urlunsplit` / `urljoin`, modelled here on `List Char`), status
classification (`status_label`), link extraction (`get_links`), and the
BFS crawl loop (`crawl`).  Network I/O (`requests.Session.get`) and the
HTML parser (`BeautifulSoup(...).find_all("a", href=True)`) are external
collaborators and enter as function parameters (`fetch`, `findAll`);
Python exceptions (`ValueError` from URL parsing) are modelled as
`Option.none`.  Timing side effects (`time.sleep`, politeness jitter)
and console printing have no effect on the returned data and are not
modelled.
-/

/-- Characters CPython's `urlsplit` deletes from a URL before parsing
(`_UNSAFE_URL_BYTES_TO_REMOVE = ["\t", "\r", "\n"]`). -/
def unsafeURLChars : List Char := ['\t', '\r', '\n']

/-- `url.replace("\t","").replace("\r","").replace("\n","")`. -/
def removeUnsafe (l : List Char) : List Char :=
  l.filter fun c => ¬ c ∈ unsafeURLChars

/-- Split a character list at the FIRST occurrence of `d`
(Python `s.split(d, 1)` / `s.find(d)`): `some (before, after)`
with the delimiter dropped, or `none` when `d` does not occur. -/
def breakAt (d : Char) : List Char → Option (List Char × List Char)
  | [] => none
  | c :: cs =>
    if c = d then some ([], cs)
    else (breakAt d cs).map fun p => (c :: p.1, p.2)

/-- Split at the LAST occurrence of `d` (Python `s.rfind(d)`). -/
def rbreakAt (d : Char) (l : List Char) : Option (List Char × List Char) :=
  (breakAt d l.reverse).map fun p => (p.2.reverse, p.1.reverse)

/-- Python `s.split(d)` (split on every occurrence; `"".split(d) = [""]`). -/
def splitAll (d : Char) : List Char → List (List Char)
  | [] => [[]]
  | c :: cs =>
    if c = d then [] :: splitAll d cs
    else
      match splitAll d cs with
      | [] => [[c]]
      | s :: ss => (c :: s) :: ss

/-- Python `str.strip()` (whitespace from both ends). -/
def pstrip (l : List Char) : List Char :=
  ((l.dropWhile Char.isWhitespace).reverse.dropWhile Char.isWhitespace).reverse

/-- `urllib.parse.scheme_chars`: ASCII letters, digits, and `+-.`. -/
def schemeChars : List Char :=
  "abcdefghijklmnopqrstuvwxyzABCDEFGHIJKLMNOPQRSTUVWXYZ0123456789+-.".data

/-- The candidate scheme `url[:i]` is accepted when it is nonempty, starts
with an ASCII letter and consists of `scheme_chars` only (CPython
`urlsplit`). -/
def validScheme (pre : List Char) : Bool :=
  match pre with
  | [] => false
  | c :: _ => c.isAlpha && pre.all fun ch => schemeChars.contains ch

/-- A character terminating the network-location component (`/`, `?`, `#`). -/
def netlocDelim (c : Char) : Bool :=
  c = '/' || c = '?' || c = '#'

/-- Result of `urllib.parse.urlsplit`: the 5-tuple
`(scheme, netloc, path, query, fragment)`. -/
structure SplitResult where
  scheme : List Char
  netloc : List Char
  path : List Char
  query : List Char
  fragment : List Char
deriving Repr, DecidableEq

/-- Result of `urllib.parse.urlparse`: the 6-tuple
`(scheme, netloc, path, params, query, fragment)`. -/
structure ParseResult where
  scheme : List Char
  netloc : List Char
  path : List Char
  params : List Char
  query : List Char
  fragment : List Char
deriving Repr, DecidableEq

/-- The scheme-extraction step of `urlsplit`: take everything before the
first `:` as the scheme (lower-cased) when it is a valid scheme, else
keep `default` (the `scheme=` argument of `urlsplit`). -/
def splitScheme (dflt : List Char) (url : List Char) : List Char × List Char :=
  match breakAt ':' url with
  | some (pre, rest) =>
    if validScheme pre then (pre.map Char.toLower, rest) else (dflt, url)
  | none => (dflt, url)

/-- The fragment/query extraction of `urlsplit` on the post-netloc
remainder: split at the first `#` (fragment), then at the first `?`
(query); returns `(path, query, fragment)`. -/
def splitFragQuery (rest2 : List Char) : List Char × List Char × List Char :=
  let pqf :=
    match breakAt '#' rest2 with
    | some (a, b) => (a, b)
    | none => (rest2, [])
  let pq :=
    match breakAt '?' pqf.1 with
    | some (a, b) => (a, b)
    | none => (pqf.1, [])
  (pq.1, pq.2, pqf.2)

/-- `urllib.parse.urlsplit(url, scheme=dflt)`.  `none` models the
`ValueError("Invalid IPv6 URL")` raised on a bracket-mismatched netloc.
(The additional bracketed-host and NFKC netloc validations of CPython
3.11+, which only reject further inputs, are not modelled; every URL this
function accepts and CPython accepts is parsed identically.) -/
def urlsplit (dflt : List Char) (url0 : List Char) : Option SplitResult :=
  let url1 := removeUnsafe (url0.dropWhile fun c => c ≤ ' ')
  let (scheme, rest) := splitScheme dflt url1
  let netlocSplit : Option (List Char × List Char) :=
    if rest.take 2 = ['/', '/'] then
      let after := rest.drop 2
      let netloc := after.takeWhile fun c => !netlocDelim c
      let rest2 := after.dropWhile fun c => !netlocDelim c
      if (netloc.contains '[' && !netloc.contains ']') ||
         (netloc.contains ']' && !netloc.contains '[') then none
      else some (netloc, rest2)
    else some ([], rest)
  match netlocSplit with
  | none => none
  | some (netloc, rest2) =>
    let pqf := splitFragQuery rest2
    some ⟨scheme, netloc, pqf.1, pqf.2.1, pqf.2.2⟩

/-- `urllib.parse._splitparams`: split `;params` off the last path
segment. -/
def splitparams (url : List Char) : List Char × List Char :=
  if url.contains '/' then
    match rbreakAt '/' url with
    | some (a, b) =>
      match breakAt ';' b with
      | some (b1, b2) => (a ++ '/' :: b1, b2)
      | none => (url, [])
    | none => (url, [])
  else
    match breakAt ';' url with
    | some (u1, u2) => (u1, u2)
    | none => (url, [])

/-- `urllib.parse.uses_params` (CPython 3.11). -/
def uses_params : List (List Char) :=
  (["", "ftp", "hdl", "prospero", "http", "imap", "https", "shttp", "rtsp",
    "rtsps", "rtspu", "sip", "sips", "mms", "sftp", "tel"] :
    List String).map String.data

/-- The path/params pair `urlparse` computes from `urlsplit`'s path:
params are split off only for schemes in `uses_params`. -/
def paramsSplit (scheme path : List Char) : List Char × List Char :=
  if scheme ∈ uses_params ∧ path.contains ';' then splitparams path
  else (path, [])

/-- `urllib.parse.urlparse(url, scheme=dflt)`: split off `;params` only
for schemes in `uses_params`. -/
def urlparse (dflt : List Char) (url : List Char) : Option ParseResult :=
  (urlsplit dflt url).map fun s =>
    let pp := paramsSplit s.scheme s.path
    ⟨s.scheme, s.netloc, pp.1, pp.2, s.query, s.fragment⟩

/-- `urllib.parse.uses_relative` (CPython 3.11). -/
def uses_relative : List (List Char) :=
  (["", "ftp", "http", "gopher", "nntp", "imap", "wais", "file", "https",
    "shttp", "mms", "prospero", "rtsp", "rtsps", "rtspu", "sftp", "svn",
    "svn+ssh", "ws", "wss"] : List String).map String.data

/-- `urllib.parse.uses_netloc` (CPython 3.11). -/
def uses_netloc : List (List Char) :=
  (["", "ftp", "http", "gopher", "nntp", "telnet", "imap", "wais", "file",
    "mms", "https", "shttp", "snews", "prospero", "rtsp", "rtsps", "rtspu",
    "rsync", "svn", "svn+ssh", "sftp", "nfs", "git", "git+ssh", "ws",
    "wss"] : List String).map String.data

/-- `urllib.parse.urlunsplit` (CPython 3.11): re-insert `//` when there
is a netloc, or when the scheme uses a netloc and the path does not
already begin with `//`. -/
def urlunsplit (c : SplitResult) : List Char :=
  let url := c.path
  let url :=
    if c.netloc ≠ [] ∨
       (c.scheme ≠ [] ∧ c.scheme ∈ uses_netloc ∧ url.take 2 ≠ ['/', '/']) then
      let url := if url ≠ [] ∧ url.take 1 ≠ ['/'] then '/' :: url else url
      '/' :: '/' :: (c.netloc ++ url)
    else url
  let url := if c.scheme ≠ [] then c.scheme ++ ':' :: url else url
  let url := if c.query ≠ [] then url ++ '?' :: c.query else url
  if c.fragment ≠ [] then url ++ '#' :: c.fragment else url

/-- `path;params` when params are present (the re-serialization inside
`urlunparse`). -/
def rejoinParams (path params : List Char) : List Char :=
  if params ≠ [] then path ++ ';' :: params else path

/-- `urllib.parse.urlunparse` (re-attach `;params` to the path, then
`urlunsplit`); this is what `ParseResult.geturl()` computes. -/
def urlunparse (p : ParseResult) : List Char :=
  urlunsplit ⟨p.scheme, p.netloc, rejoinParams p.path p.params, p.query, p.fragment⟩

/-- `normalise` (site_crawler.py line 65): strip the fragment so
`#anchors` do not create duplicate entries.
`return urlparse(url)._replace(fragment="").geturl()`. -/
def normalise (u : String) : Option String :=
  (urlparse [] u.data).map fun p => String.mk (urlunparse { p with fragment := [] })

/-- `same_domain` (site_crawler.py line 71):
`urlparse(url).netloc == urlparse(base).netloc`. -/
def same_domain (url base : String) : Option Bool :=
  match urlparse [] url.data, urlparse [] base.data with
  | some a, some b => some (a.netloc == b.netloc)
  | _, _ => none


/-- `segments[1:-1] = filter(None, segments[1:-1])`: drop empty segments,
keeping the first and last elements. -/
def filterMiddle : List (List Char) → List (List Char)
  | [] => []
  | [x] => [x]
  | x :: y :: xs =>
    x :: ((y :: xs).dropLast.filter fun s => s ≠ []) ++
      [(y :: xs).getLast (List.cons_ne_nil y xs)]

/-- The `resolved_path` accumulation loop of `urljoin` (`..` pops, `.` is
skipped); the accumulator is kept reversed. -/
def resolveSegs (acc : List (List Char)) : List (List Char) → List (List Char)
  | [] => acc.reverse
  | seg :: rest =>
    if seg = ['.', '.'] then resolveSegs acc.tail rest
    else if seg = ['.'] then resolveSegs acc rest
    else resolveSegs (seg :: acc) rest

/-- `urllib.parse.urljoin(base, url)` (CPython 3.11). -/
def urljoin (base url : String) : Option String :=
  if base.data = [] then some url
  else if url.data = [] then some base
  else
    match urlparse [] base.data with
    | none => none
    | some b =>
      match urlparse b.scheme url.data with
      | none => none
      | some u =>
        if ¬ (u.scheme = b.scheme ∧ u.scheme ∈ uses_relative) then some url
        else if u.scheme ∈ uses_netloc ∧ u.netloc ≠ [] then
          some (String.mk (urlunparse u))
        else
          let netloc := if u.scheme ∈ uses_netloc then b.netloc else u.netloc
          if u.path = [] ∧ u.params = [] then
            let query := if u.query = [] then b.query else u.query
            some (String.mk (urlunparse
              ⟨u.scheme, netloc, b.path, b.params, query, u.fragment⟩))
          else
            let base_parts0 := splitAll '/' b.path
            let base_parts :=
              if base_parts0.getLast? ≠ some [] then base_parts0.dropLast
              else base_parts0
            let segments :=
              if u.path.take 1 = ['/'] then splitAll '/' u.path
              else filterMiddle (base_parts ++ splitAll '/' u.path)
            let resolved0 := resolveSegs [] segments
            let resolved :=
              if segments.getLast? = some ['.'] ∨
                 segments.getLast? = some ['.', '.'] then resolved0 ++ [[]]
              else resolved0
            let joined := List.intercalate ['/'] resolved
            let joined := if joined = [] then ['/'] else joined
            some (String.mk (urlunparse
              ⟨u.scheme, netloc, joined, u.params, u.query, u.fragment⟩))

/-! ## The crawler -/

/-- One row of the crawl report (`results.append({...})`, line 144). -/
structure CrawlResult where
  url : String
  status_code : Nat
  label : String
deriving Repr, DecidableEq

/-- Outcome of `session.get(url, ...)`: an HTTP response (any status),
or one of the `requests` exception classes caught at lines 133-141. -/
inductive FetchOutcome where
  | response (statusCode : Nat) (contentType : String) (body : String)
  | timeout
  | connectionError
  | requestError
deriving Repr, DecidableEq

/-- `"html" in resp.headers.get("Content-Type", "")`. -/
def containsSub (needle haystack : List Char) : Bool :=
  haystack.tails.any fun t => needle.isPrefixOf t

/-- Lines 129-141: the `try`/`except` around `session.get`.  Returns the
`(code, html)` pair the loop continues with: transport failures give
`(0, "")`, and the body counts as HTML only when the declared content
type mentions "html". -/
def fetchResult (fetch : String → FetchOutcome) (url : String) : Nat × String :=
  match fetch url with
  | .response code ct body =>
    (code, if containsSub "html".data ct.data then body else "")
  | .timeout => (0, "")
  | .connectionError => (0, "")
  | .requestError => (0, "")

/-- `SPECIFIC_LABELS` (line 42). -/
def SPECIFIC_LABELS : Nat → Option String
  | 400 => some "❌ 400 Bad Request"
  | 401 => some "🔒 401 Unauthorized"
  | 403 => some "🚫 403 Forbidden (bot-blocked?)"
  | 404 => some "❌ 404 Not Found"
  | 405 => some "❌ 405 Method Not Allowed"
  | 410 => some "❌ 410 Gone"
  | 429 => some "⏳ 429 Rate Limited"
  | 500 => some "⚠️  500 Server Error"
  | 502 => some "⚠️  502 Bad Gateway"
  | 503 => some "⚠️  503 Service Unavailable"
  | _ => none

/-- `STATUS_LABELS` (line 55), keyed by `code // 100`. -/
def STATUS_LABELS : Nat → Option String
  | 2 => some "✅ OK"
  | 3 => some "↪️  Redirect"
  | 4 => some "❌ Client Error"
  | 5 => some "⚠️  Server Error"
  | _ => none

/-- `status_label` (line 75): exact-code tier first, then the coarse
class keyed by the leading digit, defaulting to `"❓ Unknown"`. -/
def status_label (code : Nat) : String :=
  match SPECIFIC_LABELS code with
  | some l => l
  | none => (STATUS_LABELS (code / 100)).getD "❓ Unknown"

/-- `get_links` (line 81), with BeautifulSoup's
`find_all("a", href=True)` abstracted as `findAll : String → List String`
returning the `href` attribute values in document order.  Processes each
href as the source loop does: `strip()`, skip `mailto:`/`tel:`/
`javascript:` prefixes, `normalise(urljoin(page_url, href))`.  `none`
models the `ValueError` that `urljoin`/`normalise` raise on a
bracket-mismatched authority. -/
def linksAux (page_url : String) : List String → Option (List String)
  | [] => some []
  | href :: rest =>
    let h := String.mk (pstrip href.data)
    if ("mailto:".data.isPrefixOf h.data || "tel:".data.isPrefixOf h.data ||
        "javascript:".data.isPrefixOf h.data) then linksAux page_url rest
    else
      match urljoin page_url h with
      | none => none
      | some j =>
        match normalise j with
        | none => none
        | some full => (linksAux page_url rest).map fun ls => full :: ls

/-- `get_links(html, page_url)` (line 81). -/
def get_links (findAll : String → List String) (html : String)
    (page_url : String) : Option (List String) :=
  linksAux page_url (findAll html)

/-- The loop over `get_links` output (lines 149-155): skip links already
in `visited`, skip out-of-scope links unless `include_external`, else
mark visited and enqueue. -/
def offerLinks (include_external : Bool) (start_url : String) :
    List String → List String → List String →
    Option (List String × List String)
  | [], queue, visited => some (queue, visited)
  | link :: rest, queue, visited =>
    if link ∈ visited then offerLinks include_external start_url rest queue visited
    else if include_external then
      offerLinks include_external start_url rest (queue ++ [link]) (visited ++ [link])
    else
      match same_domain link start_url with
      | none => none
      | some sd =>
        if sd then
          offerLinks include_external start_url rest (queue ++ [link]) (visited ++ [link])
        else offerLinks include_external start_url rest queue visited

/-- Line 143: `status_label(code) if code else "⏱  Timeout/Error"`;
a zero code (transport failure) gets the dedicated label. -/
def crawlLabel (code : Nat) : String :=
  if code ≠ 0 then status_label code else "⏱  Timeout/Error"

/-- The body of one `while` iteration (lines 126-155) for the dequeued
`url`: fetch, classify, append the result record, and (when the body is
HTML and the page is in scope) discover links.  Returns the
`(queue, visited, results)` the next iteration starts from. -/
def crawlStep (fetch : String → FetchOutcome)
    (links : String → String → Option (List String))
    (include_external : Bool) (start_url : String) (url : String)
    (queue visited : List String) (results : List CrawlResult) :
    Option (List String × List String × List CrawlResult) :=
  let ch := fetchResult fetch url
  let results' := results ++ [⟨url, ch.1, crawlLabel ch.1⟩]
  if ch.2 ≠ "" then
    match same_domain url start_url with
    | none => none
    | some sd =>
      if sd then
        match links ch.2 url with
        | none => none
        | some ls =>
          (offerLinks include_external start_url ls queue visited).map
            fun qv => (qv.1, qv.2, results')
      else some (queue, visited, results')
  else some (queue, visited, results')

/-- Final crawl state: the frontier `queue`, the `visited` set (modelled
as a duplicate-free list in insertion order) and the accumulated
`results`. -/
structure CrawlState where
  queue : List String
  visited : List String
  results : List CrawlResult
deriving Repr, DecidableEq

/-- The `while queue and len(results) < max_pages` loop (line 125).
`budget` is `max_pages - len(results)`, which decreases by exactly one
per iteration because every iteration appends exactly one result. -/
def crawlLoop (fetch : String → FetchOutcome)
    (links : String → String → Option (List String))
    (include_external : Bool) (start_url : String) :
    Nat → List String → List String → List CrawlResult → Option CrawlState
  | 0, queue, visited, results => some ⟨queue, visited, results⟩
  | _ + 1, [], visited, results => some ⟨[], visited, results⟩
  | budget + 1, url :: queue, visited, results =>
    match crawlStep fetch links include_external start_url url queue visited results with
    | none => none
    | some (q', v', r') =>
      crawlLoop fetch links include_external start_url budget q' v' r'

/-- `crawl(start_url, max_pages, ...)` (line 95): normalise the seed,
seed the queue and the visited set with it, run the loop, return the
results.  `fetch` abstracts the `requests` session (retry adapter
included), `findAll` abstracts BeautifulSoup. -/
def crawl (fetch : String → FetchOutcome) (findAll : String → List String)
    (start_url0 : String) (max_pages : Nat) (include_external : Bool) :
    Option (List CrawlResult) :=
  match normalise start_url0 with
  | none => none
  | some start_url =>
    (crawlLoop fetch (get_links findAll) include_external start_url
      max_pages [start_url] [start_url] []).map CrawlState.results

/-! ## The Fetcher's retry policy (spec §3, §4.5) -/

/-- `RetryPolicy` record (spec §3). -/
structure RetryPolicy where
  maxAttempts : Nat
  backoffFactor : ℚ
  retryableCodes : List Nat
deriving Repr, DecidableEq

/-- Modelled from the spec: the Fetcher's automatic retry loop executes
inside `urllib3`/`requests` (it is only configured by this repository, at
site_crawler.py lines 107-115: `Retry(total=3, backoff_factor=1,
status_forcelist=[429, 500, 502, 503, 504],
allowed_methods=["GET", "HEAD"])`).  Per spec §4.5: resend while the
response status is in `retryableCodes`, waiting
`backoffFactor * 2^attempt` before each resend, with at most
`maxAttempts` attempts in total, and only for idempotent request
methods.  `oracle n` is the status the server returns to the `n`-th
attempt (0-based); `fuel` is the number of attempts still allowed.
Returns (final status, attempts made, backoff waits). -/
def retryAux (codes : List Nat) (bf : ℚ) (idem : Bool) (oracle : Nat → Nat) :
    Nat → Nat → Nat × Nat × List ℚ
  | 0, i => (oracle i, i + 1, [])
  | 1, i => (oracle i, i + 1, [])
  | fuel + 2, i =>
    let st := oracle i
    if idem && codes.contains st then
      let r := retryAux codes bf idem oracle (fuel + 1) (i + 1)
      (r.1, r.2.1, bf * 2 ^ i :: r.2.2)
    else (st, i + 1, [])

/-- Modelled from the spec: one fetch under `policy` (see `retryAux`). -/
def fetchWithRetry (policy : RetryPolicy) (idem : Bool) (oracle : Nat → Nat) :
    Nat × Nat × List ℚ :=
  retryAux policy.retryableCodes policy.backoffFactor idem oracle
    policy.maxAttempts 0

/-- The retry configuration installed by `crawl` (lines 107-112). -/
def crawlRetryPolicy : RetryPolicy :=
  ⟨3, 1, [429, 500, 502, 503, 504]⟩

/-! ## Concrete fixtures (spec §8 scenarios) -/

/-- Fixture network for the BFS-order scenario (spec §8): the seed page
links to `/b` and `/c` (in document order), `/b` links to `/d`. -/
def bfsFetch : String → FetchOutcome := fun u =>
  if u = "http://s.example/" then .response 200 "text/html" "S"
  else if u = "http://s.example/b" then .response 200 "text/html" "B"
  else if u = "http://s.example/c" then .response 200 "text/html" "C"
  else if u = "http://s.example/d" then .response 200 "text/html" "D"
  else .response 404 "text/html" ""

/-- Hyperlink targets of the fixture pages (what
`BeautifulSoup(body).find_all("a", href=True)` yields on each body). -/
def bfsFindAll : String → List String := fun body =>
  if body = "S" then ["/b", "/c"]
  else if body = "B" then ["/d"]
  else []

/-- The link-extraction pipeline in the spec's wording (§4.4, for
comparison with `get_links`): strip each target, discard the
`mailto:`/`tel:`/`javascript:` pseudo-protocols, resolve against the
page URL and normalise, in document order, without deduplication. -/
def extractLinksSpec (findAll : String → List String) (html : String)
    (page_url : String) : Option (List String) :=
  (((findAll html).map fun h => String.mk (pstrip h.data)).filter fun h =>
      !("mailto:".data.isPrefixOf h.data || "tel:".data.isPrefixOf h.data ||
        "javascript:".data.isPrefixOf h.data)).mapM
    fun h => (urljoin page_url h).bind normalise

/-- The path-with-params component that `geturl` re-serializes for a
URL whose `urlsplit` path was `x` under scheme `sch`: split params off,
re-join them.  (Appears when normalising twice.) -/
def normPath (sch x : List Char) : List Char :=
  rejoinParams (paramsSplit sch x).1 (paramsSplit sch x).2

/-! ## Frontier lemmas -/

/-- `offerLinks` only appends: the final queue and visited list extend the
initial ones by one common, duplicate-free block of fresh URLs (each
offered URL is enqueued exactly when it is marked visited). -/
theorem offerLinks_spec (ext : Bool) (start : String) (ls : List String) :
    ∀ (q v q' v' : List String),
      offerLinks ext start ls q v = some (q', v') →
      ∃ new, q' = q ++ new ∧ v' = v ++ new ∧ new.Nodup ∧ ∀ x ∈ new, x ∉ v := by
  induction ls with
  | nil =>
    intro q v q' v' h
    simp only [offerLinks, Option.some.injEq, Prod.mk.injEq] at h
    exact ⟨[], by simp [h.1.symm], by simp [h.2.symm], List.nodup_nil, by simp⟩
  | cons link rest ih =>
    intro q v q' v' h
    simp only [offerLinks] at h
    by_cases hv : link ∈ v
    · rw [if_pos hv] at h
      exact ih _ _ _ _ h
    · rw [if_neg hv] at h
      have henq : offerLinks ext start rest (q ++ [link]) (v ++ [link]) = some (q', v') →
          ∃ new, q' = q ++ new ∧ v' = v ++ new ∧ new.Nodup ∧ ∀ x ∈ new, x ∉ v := by
        intro h'
        obtain ⟨new, hq, hv', hnd, hf⟩ := ih _ _ _ _ h'
        refine ⟨link :: new, by simp [hq], by simp [hv'], ?_, ?_⟩
        · exact List.nodup_cons.2 ⟨fun hm => hf link hm (by simp), hnd⟩
        · intro x hx
          rcases List.mem_cons.1 hx with rfl | hx'
          · exact hv
          · intro hxv
            exact hf x hx' (by simp [hxv])
      by_cases hext : ext = true
      · rw [if_pos hext] at h
        exact henq h
      · rw [if_neg hext] at h
        cases hsd : same_domain link start with
        | none => rw [hsd] at h; cases h
        | some sd =>
          rw [hsd] at h
          cases sd with
          | true =>
            replace h : offerLinks ext start rest (q ++ [link]) (v ++ [link]) =
              some (q', v') := h
            exact henq h
          | false =>
            replace h : offerLinks ext start rest q v = some (q', v') := h
            exact ih _ _ _ _ h

/-- One loop body appends exactly one result record (for the dequeued
URL, with the code and label computed from the fetch outcome) and only
extends the queue and the visited list, by a common block of fresh,
duplicate-free URLs. -/
theorem crawlStep_spec {fetch : String → FetchOutcome}
    {links : String → String → Option (List String)} {ext : Bool}
    {start u : String} {q v : List String} {r : List CrawlResult}
    {q' v' : List String} {r' : List CrawlResult}
    (h : crawlStep fetch links ext start u q v r = some (q', v', r')) :
    r' = r ++ [⟨u, (fetchResult fetch u).1, crawlLabel (fetchResult fetch u).1⟩] ∧
    ∃ new, q' = q ++ new ∧ v' = v ++ new ∧ new.Nodup ∧ ∀ x ∈ new, x ∉ v := by
  unfold crawlStep at h
  by_cases hh : (fetchResult fetch u).2 ≠ ""
  · rw [if_pos hh] at h
    cases hsd : same_domain u start with
    | none => rw [hsd] at h; cases h
    | some sd =>
      rw [hsd] at h
      cases sd with
      | true =>
        cases hls : links (fetchResult fetch u).2 u with
        | none =>
          rw [hls] at h
          exact Option.noConfusion h
        | some ls =>
          rw [hls] at h
          replace h : (offerLinks ext start ls q v).map
              (fun qv => (qv.1, qv.2,
                r ++ [⟨u, (fetchResult fetch u).1, crawlLabel (fetchResult fetch u).1⟩])) =
              some (q', v', r') := h
          cases ho : offerLinks ext start ls q v with
          | none => rw [ho] at h; cases h
          | some qv =>
            rw [ho] at h
            simp only [Option.map_some', Option.some.injEq, Prod.mk.injEq] at h
            obtain ⟨hq, hv, hr⟩ := h
            obtain ⟨new, hq2, hv2, hnd, hf⟩ := offerLinks_spec ext start ls q v qv.1 qv.2 (by rw [ho])
            exact ⟨hr.symm, new, hq.symm.trans hq2, hv.symm.trans hv2, hnd, hf⟩
      | false =>
        replace h : some (q, v,
            r ++ [⟨u, (fetchResult fetch u).1, crawlLabel (fetchResult fetch u).1⟩]) =
            some (q', v', r') := h
        simp only [Option.some.injEq, Prod.mk.injEq] at h
        exact ⟨h.2.2.symm, [], by simp [h.1], by simp [h.2.1], List.nodup_nil, by simp⟩
  · rw [if_neg hh] at h
    replace h : some (q, v,
        r ++ [⟨u, (fetchResult fetch u).1, crawlLabel (fetchResult fetch u).1⟩]) =
        some (q', v', r') := h
    simp only [Option.some.injEq, Prod.mk.injEq] at h
    exact ⟨h.2.2.symm, [], by simp [h.1], by simp [h.2.1], List.nodup_nil, by simp⟩

/-! ## Crawl-loop lemmas -/

/-- The result list is append-only across the whole loop. -/
theorem crawlLoop_results_prefix {fetch : String → FetchOutcome}
    {links : String → String → Option (List String)} {ext : Bool} {start : String} :
    ∀ (b : Nat) (q v : List String) (r : List CrawlResult) (st : CrawlState),
      crawlLoop fetch links ext start b q v r = some st →
      ∃ t, st.results = r ++ t := by
  intro b
  induction b with
  | zero =>
    intro q v r st h
    simp only [crawlLoop, Option.some.injEq] at h
    exact ⟨[], by simp [← h]⟩
  | succ b ih =>
    intro q v r st h
    match q with
    | [] =>
      simp only [crawlLoop, Option.some.injEq] at h
      exact ⟨[], by simp [← h]⟩
    | u :: q0 =>
      simp only [crawlLoop] at h
      cases hs : crawlStep fetch links ext start u q0 v r with
      | none => rw [hs] at h; cases h
      | some s =>
        rw [hs] at h
        obtain ⟨hr, -⟩ := crawlStep_spec hs
        obtain ⟨t, ht⟩ := ih s.1 s.2.1 s.2.2 st h
        exact ⟨_, by rw [ht, hr, List.append_assoc]⟩

/-- The visited set only grows across the whole loop (never removed,
in insertion order). -/
theorem crawlLoop_visited_prefix {fetch : String → FetchOutcome}
    {links : String → String → Option (List String)} {ext : Bool} {start : String} :
    ∀ (b : Nat) (q v : List String) (r : List CrawlResult) (st : CrawlState),
      crawlLoop fetch links ext start b q v r = some st →
      ∃ t, st.visited = v ++ t := by
  intro b
  induction b with
  | zero =>
    intro q v r st h
    simp only [crawlLoop, Option.some.injEq] at h
    exact ⟨[], by simp [← h]⟩
  | succ b ih =>
    intro q v r st h
    match q with
    | [] =>
      simp only [crawlLoop, Option.some.injEq] at h
      exact ⟨[], by simp [← h]⟩
    | u :: q0 =>
      simp only [crawlLoop] at h
      cases hs : crawlStep fetch links ext start u q0 v r with
      | none => rw [hs] at h; cases h
      | some s =>
        rw [hs] at h
        obtain ⟨-, new, -, hv, -, -⟩ := crawlStep_spec hs
        obtain ⟨t, ht⟩ := ih s.1 s.2.1 s.2.2 st h
        exact ⟨_, by rw [ht, hv, List.append_assoc]⟩

/-- Each iteration appends exactly one result, so at most `b` results are
added with budget `b`. -/
theorem crawlLoop_length_le {fetch : String → FetchOutcome}
    {links : String → String → Option (List String)} {ext : Bool} {start : String} :
    ∀ (b : Nat) (q v : List String) (r : List CrawlResult) (st : CrawlState),
      crawlLoop fetch links ext start b q v r = some st →
      st.results.length ≤ r.length + b := by
  intro b
  induction b with
  | zero =>
    intro q v r st h
    simp only [crawlLoop, Option.some.injEq] at h
    simp [← h]
  | succ b ih =>
    intro q v r st h
    match q with
    | [] =>
      simp only [crawlLoop, Option.some.injEq] at h
      simp [← h]
    | u :: q0 =>
      simp only [crawlLoop] at h
      cases hs : crawlStep fetch links ext start u q0 v r with
      | none => rw [hs] at h; cases h
      | some s =>
        rw [hs] at h
        obtain ⟨hr, -⟩ := crawlStep_spec hs
        have := ih s.1 s.2.1 s.2.2 st h
        rw [hr] at this
        simp at this
        omega

/-- If the loop stops with a nonempty queue, it was stopped by the page
budget: exactly `b` results were added. -/
theorem crawlLoop_queue_ne {fetch : String → FetchOutcome}
    {links : String → String → Option (List String)} {ext : Bool} {start : String} :
    ∀ (b : Nat) (q v : List String) (r : List CrawlResult) (st : CrawlState),
      crawlLoop fetch links ext start b q v r = some st →
      st.queue ≠ [] →
      st.results.length = r.length + b := by
  intro b
  induction b with
  | zero =>
    intro q v r st h _
    simp only [crawlLoop, Option.some.injEq] at h
    simp [← h]
  | succ b ih =>
    intro q v r st h hne
    match q with
    | [] =>
      simp only [crawlLoop, Option.some.injEq] at h
      rw [← h] at hne
      simp at hne
    | u :: q0 =>
      simp only [crawlLoop] at h
      cases hs : crawlStep fetch links ext start u q0 v r with
      | none => rw [hs] at h; cases h
      | some s =>
        rw [hs] at h
        obtain ⟨hr, -⟩ := crawlStep_spec hs
        have := ih s.1 s.2.1 s.2.2 st h hne
        rw [hr] at this
        simp at this
        omega

/-- Once the frontier is exhausted, extra budget changes nothing. -/
theorem crawlLoop_stable {fetch : String → FetchOutcome}
    {links : String → String → Option (List String)} {ext : Bool} {start : String} :
    ∀ (b : Nat) (q v : List String) (r : List CrawlResult) (st : CrawlState),
      crawlLoop fetch links ext start b q v r = some st →
      st.queue = [] →
      ∀ b', b ≤ b' → crawlLoop fetch links ext start b' q v r = some st := by
  intro b
  induction b with
  | zero =>
    intro q v r st h hq b' _
    simp only [crawlLoop, Option.some.injEq] at h
    subst h
    simp only at hq
    subst hq
    cases b' with
    | zero => simp [crawlLoop]
    | succ b'' => simp [crawlLoop]
  | succ b ih =>
    intro q v r st h hq b' hb'
    obtain ⟨b'', rfl⟩ : ∃ b'', b' = b'' + 1 := ⟨b' - 1, by omega⟩
    match q with
    | [] =>
      simp only [crawlLoop, Option.some.injEq] at h ⊢
      exact h
    | u :: q0 =>
      simp only [crawlLoop] at h ⊢
      cases hs : crawlStep fetch links ext start u q0 v r with
      | none => rw [hs] at h; cases h
      | some s =>
        rw [hs] at h
        exact ih s.1 s.2.1 s.2.2 st h hq b'' (by omega)

/-- Budget truncation: if some budget `B` exhausts the frontier, then any
budget `k` yields exactly `min (r.length + k) (full length)` results —
the loop is deterministic and the budget only cuts the same run short. -/
theorem crawlLoop_min {fetch : String → FetchOutcome}
    {links : String → String → Option (List String)} {ext : Bool} {start : String} :
    ∀ (k B : Nat) (q v : List String) (r : List CrawlResult) (stk stB : CrawlState),
      k ≤ B →
      crawlLoop fetch links ext start B q v r = some stB →
      stB.queue = [] →
      crawlLoop fetch links ext start k q v r = some stk →
      stk.results.length = min (r.length + k) stB.results.length := by
  intro k
  induction k with
  | zero =>
    intro B q v r stk stB _ hB hBq hk
    simp only [crawlLoop, Option.some.injEq] at hk
    subst hk
    obtain ⟨t, ht⟩ := crawlLoop_results_prefix B q v r stB hB
    simp only [Nat.add_zero]
    rw [ht]
    simp
  | succ k ih =>
    intro B q v r stk stB hkB hB hBq hk
    obtain ⟨B', rfl⟩ : ∃ B', B = B' + 1 := ⟨B - 1, by omega⟩
    match q with
    | [] =>
      simp only [crawlLoop, Option.some.injEq] at hk hB
      subst hk
      subst hB
      simp
    | u :: q0 =>
      simp only [crawlLoop] at hk hB
      cases hs : crawlStep fetch links ext start u q0 v r with
      | none => rw [hs] at hk; cases hk
      | some s =>
        rw [hs] at hk hB
        obtain ⟨hr, -⟩ := crawlStep_spec hs
        have := ih B' s.1 s.2.1 s.2.2 stk stB (by omega) hB hBq hk
        rw [hr] at this
        simp only [List.length_append, List.length_cons, List.length_nil] at this
        omega

/-- Conservation: every URL ever put in `visited` is enqueued exactly
once, so `|visited|` always equals `|results| + |queue|` up to the
initial offset. -/
theorem crawlLoop_count {fetch : String → FetchOutcome}
    {links : String → String → Option (List String)} {ext : Bool} {start : String} :
    ∀ (b : Nat) (q v : List String) (r : List CrawlResult) (st : CrawlState),
      crawlLoop fetch links ext start b q v r = some st →
      st.visited.length + r.length + q.length =
        v.length + st.results.length + st.queue.length := by
  intro b
  induction b with
  | zero =>
    intro q v r st h
    simp only [crawlLoop, Option.some.injEq] at h
    subst h
    dsimp only
  | succ b ih =>
    intro q v r st h
    match q with
    | [] =>
      simp only [crawlLoop, Option.some.injEq] at h
      subst h
      dsimp only
    | u :: q0 =>
      simp only [crawlLoop] at h
      cases hs : crawlStep fetch links ext start u q0 v r with
      | none => rw [hs] at h; cases h
      | some s =>
        rw [hs] at h
        obtain ⟨hr, new, hqn, hvn, -, -⟩ := crawlStep_spec hs
        have := ih s.1 s.2.1 s.2.2 st h
        rw [hqn, hvn, hr] at this
        simp only [List.length_append, List.length_cons, List.length_nil] at this ⊢
        omega

/-- The deduplication invariant: if the recorded URLs and the queue are
jointly duplicate-free and all covered by `visited`, they stay so for
the rest of the loop. -/
theorem crawlLoop_nodup {fetch : String → FetchOutcome}
    {links : String → String → Option (List String)} {ext : Bool} {start : String} :
    ∀ (b : Nat) (q v : List String) (r : List CrawlResult) (st : CrawlState),
      crawlLoop fetch links ext start b q v r = some st →
      (r.map CrawlResult.url ++ q).Nodup →
      (∀ x, x ∈ r.map CrawlResult.url ++ q → x ∈ v) →
      (st.results.map CrawlResult.url ++ st.queue).Nodup ∧
        (∀ x, x ∈ st.results.map CrawlResult.url ++ st.queue → x ∈ st.visited) := by
  intro b
  induction b with
  | zero =>
    intro q v r st h hnd hmem
    simp only [crawlLoop, Option.some.injEq] at h
    subst h
    exact ⟨hnd, hmem⟩
  | succ b ih =>
    intro q v r st h hnd hmem
    match q with
    | [] =>
      simp only [crawlLoop, Option.some.injEq] at h
      subst h
      exact ⟨hnd, hmem⟩
    | u :: q0 =>
      simp only [crawlLoop] at h
      cases hs : crawlStep fetch links ext start u q0 v r with
      | none => rw [hs] at h; cases h
      | some s =>
        rw [hs] at h
        obtain ⟨hr, new, hqn, hvn, hndnew, hfresh⟩ := crawlStep_spec hs
        have hperm : s.2.2.map CrawlResult.url ++ s.1 =
            (r.map CrawlResult.url ++ u :: q0) ++ new := by
          rw [hr, hqn]
          simp
        refine ih s.1 s.2.1 s.2.2 st h ?_ ?_
        · rw [hperm]
          refine List.Nodup.append hnd hndnew ?_
          intro x hx hxnew
          exact hfresh x hxnew (hmem x hx)
        · intro x hx
          rw [hperm] at hx
          rw [hvn]
          rcases List.mem_append.1 hx with hx1 | hx2
          · exact List.mem_append.2 (Or.inl (hmem x hx1))
          · exact List.mem_append.2 (Or.inr hx2)

/-- With `include_external = false`, `offerLinks` enqueues only links
whose authority equals the seed's. -/
theorem offerLinks_scope {start : String} :
    ∀ (ls q v : List String) (qv : List String × List String),
      offerLinks false start ls q v = some qv →
      (∀ y ∈ q, same_domain y start = some true) →
      ∀ x ∈ qv.1, same_domain x start = some true := by
  intro ls
  induction ls with
  | nil =>
    intro q v qv h hq x hx
    simp only [offerLinks, Option.some.injEq] at h
    subst h
    exact hq x hx
  | cons link rest ih =>
    intro q v qv h hq x hx
    simp only [offerLinks] at h
    by_cases hv : link ∈ v
    · rw [if_pos hv] at h
      exact ih q v qv h hq x hx
    · rw [if_neg hv] at h
      cases hsd : same_domain link start with
      | none =>
        rw [hsd] at h
        cases h
      | some sd =>
        rw [hsd] at h
        cases sd with
        | true =>
          replace h : offerLinks false start rest (q ++ [link]) (v ++ [link]) =
            some qv := h
          refine ih _ _ qv h ?_ x hx
          intro y hy
          rcases List.mem_append.1 hy with h1 | h2
          · exact hq y h1
          · rw [List.mem_singleton.1 h2]
            exact hsd
        | false =>
          replace h : offerLinks false start rest q v = some qv := h
          exact ih q v qv h hq x hx

/-- Scope invariant (`include_external = false`): if every queued URL and
every recorded URL shares the seed's authority, so does every URL the
loop ever records or queues afterwards. -/
theorem crawlLoop_scope {fetch : String → FetchOutcome}
    {links : String → String → Option (List String)} {start : String} :
    ∀ (b : Nat) (q v : List String) (r : List CrawlResult) (st : CrawlState),
      crawlLoop fetch links false start b q v r = some st →
      (∀ x ∈ q, same_domain x start = some true) →
      (∀ x ∈ r, same_domain x.url start = some true) →
      (∀ x ∈ st.results, same_domain x.url start = some true) ∧
        (∀ x ∈ st.queue, same_domain x start = some true) := by
  intro b
  induction b with
  | zero =>
    intro q v r st h hq hr
    simp only [crawlLoop, Option.some.injEq] at h
    subst h
    exact ⟨hr, hq⟩
  | succ b ih =>
    intro q v r st h hq hr
    match q with
    | [] =>
      simp only [crawlLoop, Option.some.injEq] at h
      subst h
      exact ⟨hr, by simp⟩
    | u :: q0 =>
      simp only [crawlLoop] at h
      cases hs : crawlStep fetch links false start u q0 v r with
      | none => rw [hs] at h; cases h
      | some s =>
        rw [hs] at h
        have hstep : (∀ x ∈ s.1, same_domain x start = some true) ∧
            (∀ x ∈ s.2.2, same_domain x.url start = some true) := by
          clear h ih
          unfold crawlStep at hs
          have hrec : ∀ x ∈ r ++ [(⟨u, (fetchResult fetch u).1,
              crawlLabel (fetchResult fetch u).1⟩ : CrawlResult)],
              same_domain x.url start = some true := by
            intro x hx
            rcases List.mem_append.1 hx with hx1 | hx2
            · exact hr x hx1
            · rw [List.mem_singleton.1 hx2]
              exact hq u (by simp)
          by_cases hh : (fetchResult fetch u).2 ≠ ""
          · rw [if_pos hh] at hs
            cases hsd : same_domain u start with
            | none => rw [hsd] at hs; cases hs
            | some sd =>
              rw [hsd] at hs
              cases sd with
              | true =>
                cases hls : links (fetchResult fetch u).2 u with
                | none =>
                  rw [hls] at hs
                  exact Option.noConfusion hs
                | some ls =>
                  rw [hls] at hs
                  replace hs : (offerLinks false start ls q0 v).map
                      (fun qv => (qv.1, qv.2, r ++ [⟨u, (fetchResult fetch u).1,
                        crawlLabel (fetchResult fetch u).1⟩])) = some s := hs
                  cases ho : offerLinks false start ls q0 v with
                  | none => rw [ho] at hs; cases hs
                  | some qv =>
                    rw [ho] at hs
                    simp only [Option.map_some', Option.some.injEq] at hs
                    subst hs
                    constructor
                    · intro x hx
                      exact offerLinks_scope ls q0 v qv ho
                        (fun y hy => hq y (by simp [hy])) x hx
                    · exact hrec
              | false =>
                replace hs : some (q0, v, r ++ [(⟨u, (fetchResult fetch u).1,
                    crawlLabel (fetchResult fetch u).1⟩ : CrawlResult)]) = some s := hs
                simp only [Option.some.injEq] at hs
                subst hs
                exact ⟨fun x hx => hq x (by simp [hx]), hrec⟩
          · rw [if_neg hh] at hs
            replace hs : some (q0, v, r ++ [(⟨u, (fetchResult fetch u).1,
                crawlLabel (fetchResult fetch u).1⟩ : CrawlResult)]) = some s := hs
            simp only [Option.some.injEq] at hs
            subst hs
            exact ⟨fun x hx => hq x (by simp [hx]), hrec⟩
        exact ih s.1 s.2.1 s.2.2 st h hstep.1 hstep.2

/-- Links are extracted only from in-scope pages: two link extractors
that agree on pages whose URL shares the seed's authority produce
identical crawls — what an extractor would return for an out-of-scope
page is never consulted (line 148 guards discovery with
`same_domain(url, start_url)`). -/
theorem crawlLoop_links_congr {fetch : String → FetchOutcome}
    {links links' : String → String → Option (List String)} {ext : Bool}
    {start : String}
    (hagree : ∀ h u, same_domain u start = some true → links h u = links' h u) :
    ∀ (b : Nat) (q v : List String) (r : List CrawlResult),
      crawlLoop fetch links ext start b q v r =
        crawlLoop fetch links' ext start b q v r := by
  intro b
  induction b with
  | zero => intro q v r; rfl
  | succ b ih =>
    intro q v r
    match q with
    | [] => rfl
    | u :: q0 =>
      have hstep : crawlStep fetch links ext start u q0 v r =
          crawlStep fetch links' ext start u q0 v r := by
        unfold crawlStep
        by_cases hh : (fetchResult fetch u).2 ≠ ""
        · rw [if_pos hh, if_pos hh]
          cases hsd : same_domain u start with
          | none => rfl
          | some sd =>
            cases sd with
            | true => rw [hagree (fetchResult fetch u).2 u hsd]
            | false => rfl
        · rw [if_neg hh, if_neg hh]
      simp only [crawlLoop]
      rw [hstep]
      cases crawlStep fetch links' ext start u q0 v r with
      | none => rfl
      | some s => exact ih s.1 s.2.1 s.2.2

/-- `Option`-monad `mapM` unfolding on a cons cell. -/
theorem mapM_option_cons {α β : Type} (f : α → Option β) (a : α) (l : List α) :
    (a :: l).mapM f = (f a).bind fun b => (l.mapM f).map fun bs => b :: bs := by
  rw [List.mapM_cons]
  cases hfa : f a with
  | none => rfl
  | some b =>
    cases hl : l.mapM f with
    | none => simp
    | some bs => simp

/-- `get_links` is exactly the spec's pipeline: strip, filter the three
pseudo-protocol prefixes, resolve-and-normalise each survivor in
document order (failing as a whole if any single resolution fails). -/
theorem linksAux_pipeline (page : String) :
    ∀ hl : List String,
      linksAux page hl =
        ((hl.map fun h => String.mk (pstrip h.data)).filter fun h =>
          !("mailto:".data.isPrefixOf h.data || "tel:".data.isPrefixOf h.data ||
            "javascript:".data.isPrefixOf h.data)).mapM
          fun h => (urljoin page h).bind normalise := by
  intro hl
  induction hl with
  | nil => rfl
  | cons href rest ih =>
    simp only [linksAux, List.map_cons]
    by_cases hbad : ("mailto:".data.isPrefixOf (String.mk (pstrip href.data)).data ||
        "tel:".data.isPrefixOf (String.mk (pstrip href.data)).data ||
        "javascript:".data.isPrefixOf (String.mk (pstrip href.data)).data) = true
    · rw [if_pos hbad, ih, List.filter_cons_of_neg (by simp [hbad])]
    · rw [if_neg hbad, List.filter_cons_of_pos (by simp [hbad]),
        mapM_option_cons, ih]
      cases hj : urljoin page (String.mk (pstrip href.data)) with
      | none => rfl
      | some j =>
        cases hn : normalise j with
        | none => simp [hn]
        | some full => simp [hn]

/-! ## Claim theorems -/

/-- **C5 counterexample**: 100 is not a specific code, yet `status_label`
does not return a class label keyed by its leading digit — there is no
class entry for 1, and the function falls back to a third tier,
`"❓ Unknown"`, which the claim does not mention. -/
theorem status_label_two_tier_c5_cex :
    SPECIFIC_LABELS 100 = none ∧ STATUS_LABELS (100 / 100) = none ∧
    status_label 100 = "❓ Unknown" ∧
    status_label 100 ∉ ["✅ OK", "↪️  Redirect", "❌ Client Error",
      "⚠️  Server Error"] := by
  refine ⟨rfl, rfl, rfl, ?_⟩
  decide

/-- **C5** (amended): the exact-code tier wins; any other code whose
leading digit has a class entry (2xx/3xx/4xx/5xx) gets that class label;
codes with no class entry (e.g. 1xx or ≥ 600) get the `"❓ Unknown"`
default; a zero code is labelled by the crawl loop with the dedicated
transport-failure label; 404 hits the specific tier, 201 falls back to
the 2xx class label, a label no specific code produces. -/
theorem status_label_two_tier_c5 :
    (∀ c l, SPECIFIC_LABELS c = some l → status_label c = l) ∧
    (∀ c l, SPECIFIC_LABELS c = none → STATUS_LABELS (c / 100) = some l →
      status_label c = l) ∧
    (∀ c, SPECIFIC_LABELS c = none → STATUS_LABELS (c / 100) = none →
      status_label c = "❓ Unknown") ∧
    crawlLabel 0 = "⏱  Timeout/Error" ∧
    status_label 404 = "❌ 404 Not Found" ∧
    status_label 201 = "✅ OK" ∧
    (∀ c, SPECIFIC_LABELS c ≠ some "✅ OK") := by
  refine ⟨?_, ?_, ?_, rfl, rfl, rfl, ?_⟩
  · intro c l h
    simp [status_label, h]
  · intro c l h1 h2
    simp [status_label, h1, h2]
  · intro c h1 h2
    simp [status_label, h1, h2]
  · intro c h
    unfold SPECIFIC_LABELS at h
    split at h <;> simp_all

/-- Witness for C5: the class tier applied at a concrete code. -/
theorem status_label_two_tier_c5_wit :
    status_label 418 = "❌ Client Error" :=
  status_label_two_tier_c5.2.1 418 "❌ Client Error" rfl rfl

/-- **C10**: `same_domain` compares the raw netloc strings for equality,
so case-differing hosts, an explicit default port, or userinfo make two
URLs different authorities. -/
theorem same_domain_exact_c10 :
    (∀ u b pu pb, urlparse [] u.data = some pu → urlparse [] b.data = some pb →
      same_domain u b = some (pu.netloc == pb.netloc)) ∧
    same_domain "http://Example.com/" "http://example.com/" = some false ∧
    same_domain "http://example.com:80/" "http://example.com/" = some false ∧
    same_domain "http://user@example.com/" "http://example.com/" = some false ∧
    same_domain "http://example.com/a" "http://example.com/b" = some true := by
  refine ⟨?_, by decide, by decide, by decide, by decide⟩
  intro u b pu pb hu hb
  unfold same_domain
  rw [hu, hb]

/-- Witness for C10 at concrete URLs. -/
theorem same_domain_exact_c10_wit :
    same_domain "http://a/" "http://b/" =
      some ((⟨"http".data, "a".data, "/".data, [], [], []⟩ : ParseResult).netloc ==
        (⟨"http".data, "b".data, "/".data, [], [], []⟩ : ParseResult).netloc) :=
  same_domain_exact_c10.1 "http://a/" "http://b/" _ _ (by decide) (by decide)

/-- **C7 counterexample**: a hyperlink target with a bracket-mismatched
authority makes `get_links` fail (Python raises `ValueError` from
`urljoin`) instead of yielding a URL for the element — so extraction is
not total on arbitrary HTML documents.  The stand-in `findAll` returns
exactly what BeautifulSoup returns on this document: the single href
`"//["`. -/
theorem get_links_pipeline_c7_cex :
    get_links (fun _ => ["//["]) "<a href=\"//[\">x</a>" "http://h/" = none := by
  decide

/-- **C7** (amended): `get_links` is exactly the spec's pipeline — strip
each target, discard `mailto:`/`tel:`/`javascript:` prefixes, resolve
against the page URL and normalise, in document order and without
deduplication — except that it fails (raises) when a kept target's
authority has mismatched square brackets; documents with no hyperlink
elements (non-HTML or unparseable input) yield the empty sequence. -/
theorem get_links_pipeline_c7 :
    (∀ findAll html page_url,
      get_links findAll html page_url = extractLinksSpec findAll html page_url) ∧
    (∀ (findAll : String → List String) html page_url, findAll html = [] →
      get_links findAll html page_url = some []) := by
  constructor
  · intro findAll html page_url
    unfold get_links extractLinksSpec
    exact linksAux_pipeline page_url (findAll html)
  · intro findAll html page_url h
    unfold get_links
    rw [h]
    rfl

/-- Witness for C7: a parser that finds no hyperlinks yields no links. -/
theorem get_links_pipeline_c7_wit :
    get_links (fun _ => []) "plain text" "http://h/" = some [] :=
  get_links_pipeline_c7.2 (fun _ => []) "plain text" "http://h/" rfl

/-- **C6**: a transport failure for the dequeued URL is recorded as
exactly one result with code 0 and the dedicated label, no exception
escapes, and the loop continues with the remaining queue; in general
every processed URL appends exactly one record, whatever the outcome. -/
theorem crawl_transport_failure_c6 :
    (∀ fetch links ext start u q v r b,
      (fetch u = FetchOutcome.timeout ∨ fetch u = FetchOutcome.connectionError ∨
        fetch u = FetchOutcome.requestError) →
      crawlLoop fetch links ext start (b + 1) (u :: q) v r =
        crawlLoop fetch links ext start b q v
          (r ++ [⟨u, 0, "⏱  Timeout/Error"⟩])) ∧
    (∀ fetch links ext start u q v r q' v' r',
      crawlStep fetch links ext start u q v r = some (q', v', r') →
      r' = r ++ [⟨u, (fetchResult fetch u).1, crawlLabel (fetchResult fetch u).1⟩]) := by
  constructor
  · intro fetch links ext start u q v r b hf
    have hfr : fetchResult fetch u = (0, "") := by
      rcases hf with h | h | h <;> simp [fetchResult, h]
    have hstep : crawlStep fetch links ext start u q v r =
        some (q, v, r ++ [⟨u, 0, "⏱  Timeout/Error"⟩]) := by
      unfold crawlStep
      rw [hfr]
      rfl
    simp only [crawlLoop]
    rw [hstep]
  · intro fetch links ext start u q v r q' v' r' h
    exact (crawlStep_spec h).1

/-- Witness for C6: a timing-out network, one queued URL. -/
theorem crawl_transport_failure_c6_wit :
    crawlLoop (fun _ => FetchOutcome.timeout) (fun _ _ => some []) false
        "http://h/" 1 ["http://h/"] ["http://h/"] [] =
      crawlLoop (fun _ => FetchOutcome.timeout) (fun _ _ => some []) false
        "http://h/" 0 [] ["http://h/"]
        [⟨"http://h/", 0, "⏱  Timeout/Error"⟩] :=
  crawl_transport_failure_c6.1 (fun _ => FetchOutcome.timeout)
    (fun _ _ => some []) false "http://h/" "http://h/" [] ["http://h/"] [] 0
    (Or.inl rfl)

/-- **C1**: deduplication — a URL enters `visited` when first enqueued,
`visited` only ever grows (the old list is always a prefix of the new),
everything recorded or queued is in `visited`, and no URL appears twice
in the returned results. -/
theorem crawl_dedup_c1 :
    (∀ fetch findAll s0 k ext res,
      crawl fetch findAll s0 k ext = some res →
      (res.map CrawlResult.url).Nodup) ∧
    (∀ fetch links ext start b q v r st,
      crawlLoop fetch links ext start b q v r = some st →
      ∃ t, st.visited = v ++ t) ∧
    (∀ fetch links ext start b q v r st,
      crawlLoop fetch links ext start b q v r = some st →
      (r.map CrawlResult.url ++ q).Nodup →
      (∀ x, x ∈ r.map CrawlResult.url ++ q → x ∈ v) →
      ∀ x, x ∈ st.results.map CrawlResult.url ++ st.queue → x ∈ st.visited) := by
  refine ⟨?_, ?_, ?_⟩
  · intro fetch findAll s0 k ext res h
    unfold crawl at h
    cases hn : normalise s0 with
    | none => rw [hn] at h; cases h
    | some start =>
      rw [hn] at h
      replace h : Option.map CrawlState.results
          (crawlLoop fetch (get_links findAll) ext start k [start] [start] []) =
          some res := h
      cases hl : crawlLoop fetch (get_links findAll) ext start k [start] [start] [] with
      | none => rw [hl] at h; cases h
      | some st =>
        rw [hl] at h
        simp only [Option.map_some', Option.some.injEq] at h
        subst h
        have := (crawlLoop_nodup k [start] [start] [] st hl (by simp)
          (by intro x hx; simpa using hx)).1
        exact (List.nodup_append.1 this).1
  · intro fetch links ext start b q v r st h
    exact crawlLoop_visited_prefix b q v r st h
  · intro fetch links ext start b q v r st h hnd hmem
    exact (crawlLoop_nodup b q v r st h hnd hmem).2

/-- Witness for C1 on the concrete fixture crawl. -/
theorem crawl_dedup_c1_wit :
    (([⟨"http://s.example/", 200, "✅ OK"⟩, ⟨"http://s.example/b", 200, "✅ OK"⟩,
       ⟨"http://s.example/c", 200, "✅ OK"⟩, ⟨"http://s.example/d", 200, "✅ OK"⟩] :
      List CrawlResult).map CrawlResult.url).Nodup :=
  crawl_dedup_c1.1 bfsFetch bfsFindAll "http://s.example/" 10 false _ (by decide)

/-- **C2**: BFS ordering — on the fixture graph (seed links to B and C in
document order, B links to D) a crawl with `maxPages = 10` returns
exactly [seed, B, C, D]; in general the result list records URLs in
dequeue order: whenever the loop runs with `u` at the head of the queue,
the results it returns are the already-recorded ones, then `u`, then the
later dequeues. -/
theorem crawl_bfs_order_c2 :
    ((crawl bfsFetch bfsFindAll "http://s.example/" 10 false).map
        (fun rs => rs.map CrawlResult.url) =
      some ["http://s.example/", "http://s.example/b", "http://s.example/c",
        "http://s.example/d"]) ∧
    (∀ fetch links ext start b u q v r st,
      crawlLoop fetch links ext start (b + 1) (u :: q) v r = some st →
      ∃ t, st.results.map CrawlResult.url = r.map CrawlResult.url ++ u :: t) := by
  constructor
  · decide
  · intro fetch links ext start b u q v r st h
    simp only [crawlLoop] at h
    cases hs : crawlStep fetch links ext start u q v r with
    | none => rw [hs] at h; cases h
    | some s =>
      rw [hs] at h
      obtain ⟨hr, -⟩ := crawlStep_spec hs
      obtain ⟨t, ht⟩ := crawlLoop_results_prefix b s.1 s.2.1 s.2.2 st h
      refine ⟨t.map CrawlResult.url, ?_⟩
      rw [ht, hr]
      simp

/-- Witness for C2's dequeue-order component on the fixture. -/
theorem crawl_bfs_order_c2_wit :
    ∃ st, crawlLoop bfsFetch (get_links bfsFindAll) false "http://s.example/" 1
        ["http://s.example/"] ["http://s.example/"] [] = some st ∧
      ∃ t, st.results.map CrawlResult.url =
        ([] : List CrawlResult).map CrawlResult.url ++ "http://s.example/" :: t := by
  refine ⟨⟨["http://s.example/b", "http://s.example/c"],
    ["http://s.example/", "http://s.example/b", "http://s.example/c"],
    [⟨"http://s.example/", 200, "✅ OK"⟩]⟩, by decide, ?_⟩
  exact crawl_bfs_order_c2.2 bfsFetch (get_links bfsFindAll) false
    "http://s.example/" 0 "http://s.example/" [] ["http://s.example/"] [] _
    (by decide)

/-- **C3**: page budget — the loop stops exactly when the frontier is
empty or `k` results have accumulated; and if some budget `B` exhausts
the frontier (so `stB.visited` is the set of distinct reachable in-scope
URLs, each enqueued once and each dequeued once:
`|visited| = |results|`), then a crawl with budget `k` returns exactly
`min k |stB.visited|` results. -/
theorem crawl_page_budget_c3 :
    ∀ fetch links ext (start : String) k B stk stB,
      crawlLoop fetch links ext start B [start] [start] [] = some stB →
      stB.queue = [] →
      crawlLoop fetch links ext start k [start] [start] [] = some stk →
      (stk.queue = [] ∨ stk.results.length = k) ∧
      stB.visited.length = stB.results.length ∧
      stk.results.length = min k stB.visited.length := by
  intro fetch links ext start k B stk stB hB hBq hk
  have hcount := crawlLoop_count B [start] [start] [] stB hB
  rw [hBq] at hcount
  simp only [List.length_cons, List.length_nil, List.length_singleton] at hcount
  have hvis : stB.visited.length = stB.results.length := by omega
  refine ⟨?_, hvis, ?_⟩
  · by_cases hq : stk.queue = []
    · exact Or.inl hq
    · refine Or.inr ?_
      have := crawlLoop_queue_ne k [start] [start] [] stk hk hq
      simpa using this
  · rw [hvis]
    by_cases hkB : k ≤ B
    · have := crawlLoop_min k B [start] [start] [] stk stB hkB hB hBq hk
      simpa using this
    · have hstable := crawlLoop_stable B [start] [start] [] stB hB hBq k (by omega)
      rw [hstable] at hk
      injection hk with hk
      subst hk
      have hlen := crawlLoop_length_le B [start] [start] [] stB hB
      simp only [List.length_nil, Nat.zero_add] at hlen
      omega

/-- Witness for C3 on the fixture: budget 2 against the exhausting run
with budget 10 (4 reachable pages). -/
theorem crawl_page_budget_c3_wit :
    ∃ stk stB, crawlLoop bfsFetch (get_links bfsFindAll) false
        "http://s.example/" 10 ["http://s.example/"] ["http://s.example/"] [] =
        some stB ∧
      crawlLoop bfsFetch (get_links bfsFindAll) false
        "http://s.example/" 2 ["http://s.example/"] ["http://s.example/"] [] =
        some stk ∧
      stk.results.length = min 2 stB.visited.length := by
  refine ⟨⟨["http://s.example/c", "http://s.example/d"],
      ["http://s.example/", "http://s.example/b", "http://s.example/c",
        "http://s.example/d"],
      [⟨"http://s.example/", 200, "✅ OK"⟩, ⟨"http://s.example/b", 200, "✅ OK"⟩]⟩,
    ⟨[],
      ["http://s.example/", "http://s.example/b", "http://s.example/c",
        "http://s.example/d"],
      [⟨"http://s.example/", 200, "✅ OK"⟩, ⟨"http://s.example/b", 200, "✅ OK"⟩,
        ⟨"http://s.example/c", 200, "✅ OK"⟩, ⟨"http://s.example/d", 200, "✅ OK"⟩]⟩,
    by decide, by decide, ?_⟩
  exact (crawl_page_budget_c3 bfsFetch (get_links bfsFindAll) false
    "http://s.example/" 2 10 _ _ (by decide) (by decide) (by decide)).2.2

/-- **C4**: scope discipline — with `include_external = false` every
returned record's URL has the seed's authority (`same_domain` with the
crawl's normalised seed is `true`); and for any `include_external`,
link extractors that agree on in-scope pages give identical crawls, so
links discovered on an out-of-scope page are never consulted, let alone
enqueued. -/
theorem crawl_scope_c4 :
    (∀ fetch findAll s0 k (start : String) res ps,
      normalise s0 = some start →
      urlparse [] start.data = some ps →
      crawl fetch findAll s0 k false = some res →
      ∀ x ∈ res, same_domain x.url start = some true) ∧
    (∀ fetch links links' ext (start : String) b q v r,
      (∀ h u, same_domain u start = some true → links h u = links' h u) →
      crawlLoop fetch links ext start b q v r =
        crawlLoop fetch links' ext start b q v r) := by
  constructor
  · intro fetch findAll s0 k start res ps hn hps h
    unfold crawl at h
    rw [hn] at h
    replace h : Option.map CrawlState.results
        (crawlLoop fetch (get_links findAll) false start k [start] [start] []) =
        some res := h
    cases hl : crawlLoop fetch (get_links findAll) false start k [start] [start] [] with
    | none => rw [hl] at h; cases h
    | some st =>
      rw [hl] at h
      simp only [Option.map_some', Option.some.injEq] at h
      subst h
      have hself : same_domain start start = some true := by
        unfold same_domain
        rw [hps]
        simp
      exact (crawlLoop_scope k [start] [start] [] st hl
        (by intro x hx; rw [List.mem_singleton.1 hx]; exact hself)
        (by intro x hx; cases hx)).1
  · intro fetch links links' ext start b q v r hagree
    exact crawlLoop_links_congr hagree b q v r

/-- Witness for C4 on the fixture crawl (every result shares the seed's
authority). -/
theorem crawl_scope_c4_wit :
    ∀ x ∈ ([⟨"http://s.example/", 200, "✅ OK"⟩,
        ⟨"http://s.example/b", 200, "✅ OK"⟩,
        ⟨"http://s.example/c", 200, "✅ OK"⟩,
        ⟨"http://s.example/d", 200, "✅ OK"⟩] : List CrawlResult),
      same_domain x.url "http://s.example/" = some true :=
  crawl_scope_c4.1 bfsFetch bfsFindAll "http://s.example/" 10 "http://s.example/"
    _ ⟨"http".data, "s.example".data, "/".data, [], [], []⟩ (by decide) (by decide)
    (by decide)

/-- Attempt counting and backoff waits of the retry loop: at least one
attempt, at most `fuel` attempts (when `fuel ≥ 1`), and the waits are
exactly `backoffFactor * 2^attempt` for the attempts that were
retried. -/
theorem retryAux_spec (codes : List Nat) (bf : ℚ) (idem : Bool)
    (oracle : Nat → Nat) :
    ∀ fuel i,
      i + 1 ≤ (retryAux codes bf idem oracle fuel i).2.1 ∧
      (1 ≤ fuel → (retryAux codes bf idem oracle fuel i).2.1 ≤ i + fuel) ∧
      (retryAux codes bf idem oracle fuel i).2.2 =
        (List.range ((retryAux codes bf idem oracle fuel i).2.1 - 1 - i)).map
          fun j => bf * 2 ^ (i + j) := by
  intro fuel
  induction fuel with
  | zero =>
    intro i
    refine ⟨le_refl _, by omega, by simp [retryAux]⟩
  | succ f ih =>
    intro i
    match f with
    | 0 => exact ⟨le_refl _, by simp [retryAux], by simp [retryAux]⟩
    | f' + 1 =>
      by_cases hc : (idem && codes.contains (oracle i)) = true
      · have heq : retryAux codes bf idem oracle (f' + 2) i =
            ((retryAux codes bf idem oracle (f' + 1) (i + 1)).1,
             (retryAux codes bf idem oracle (f' + 1) (i + 1)).2.1,
             bf * 2 ^ i :: (retryAux codes bf idem oracle (f' + 1) (i + 1)).2.2) := by
          conv_lhs => rw [retryAux]
          rw [if_pos hc]
        obtain ⟨h1, h2, h3⟩ := ih (i + 1)
        rw [heq]
        have h2' := h2 (by omega)
        refine ⟨by simp only; omega, by intro _; simp only; omega, ?_⟩
        simp only
        rw [h3]
        have hn : (retryAux codes bf idem oracle (f' + 1) (i + 1)).2.1 - 1 - i =
            ((retryAux codes bf idem oracle (f' + 1) (i + 1)).2.1 - 1 - (i + 1)) + 1 := by
          omega
        rw [hn, List.range_succ_eq_map, List.map_cons]
        refine congrArg₂ _ (by rw [Nat.add_zero]) ?_
        rw [List.map_map]
        refine List.map_congr_left ?_
        intro j _
        simp only [Function.comp_apply]
        refine congrArg _ (congrArg _ ?_)
        omega
      · have heq : retryAux codes bf idem oracle (f' + 2) i = (oracle i, i + 1, []) := by
          conv_lhs => rw [retryAux]
          rw [if_neg hc]
        rw [heq]
        exact ⟨le_refl _, by intro _; simp only; omega, by simp⟩

/-- **C9** (spec-modelled retry engine): the fetch layer retries while
the status is retryable, capped at `maxAttempts`, with waits
`backoffFactor * 2^attempt`, and only for idempotent methods; under the
configured policy a URL answering 503, 503, 200 costs exactly 3 attempts
(waits 1 then 2) and the crawl records a single CrawlResult with
status 200. -/
theorem fetch_retry_c9 :
    (fetchWithRetry crawlRetryPolicy true (fun i => if i < 2 then 503 else 200) =
      (200, 3, [1, 2])) ∧
    (crawl (fun _ => FetchOutcome.response
        (fetchWithRetry crawlRetryPolicy true
          (fun i => if i < 2 then 503 else 200)).1 "text/html" "")
      (fun _ => []) "http://h/" 10 false =
      some [⟨"http://h/", 200, "✅ OK"⟩]) ∧
    (∀ policy oracle, fetchWithRetry policy false oracle = (oracle 0, 1, [])) ∧
    (∀ policy idem oracle, 1 ≤ policy.maxAttempts →
      (fetchWithRetry policy idem oracle).2.1 ≤ policy.maxAttempts) ∧
    (∀ policy idem oracle,
      (fetchWithRetry policy idem oracle).2.2 =
        (List.range ((fetchWithRetry policy idem oracle).2.1 - 1)).map
          fun j => policy.backoffFactor * 2 ^ j) := by
  have hsc : fetchWithRetry crawlRetryPolicy true
      (fun i => if i < 2 then 503 else 200) = (200, 3, [1, 2]) := by
    have e1 : retryAux [429, 500, 502, 503, 504] 1 true
        (fun i => if i < 2 then 503 else 200) 1 2 = (200, 3, []) := by
      conv_lhs => rw [retryAux]
      norm_num
    have e2 : retryAux [429, 500, 502, 503, 504] 1 true
        (fun i => if i < 2 then 503 else 200) 2 1 = (200, 3, [(2 : ℚ)]) := by
      conv_lhs => rw [retryAux]
      rw [if_pos (by decide), e1]
      norm_num
    have e3 : retryAux [429, 500, 502, 503, 504] 1 true
        (fun i => if i < 2 then 503 else 200) 3 0 = (200, 3, [(1 : ℚ), 2]) := by
      conv_lhs => rw [retryAux]
      rw [if_pos (by decide), e2]
      norm_num
    exact e3
  refine ⟨hsc, ?_, ?_, ?_, ?_⟩
  · simp only [hsc]
    decide
  · intro policy oracle
    unfold fetchWithRetry
    match hma : policy.maxAttempts with
    | 0 => rfl
    | 1 => rfl
    | n + 2 =>
      conv_lhs => rw [retryAux]
      rw [if_neg (by simp)]
  · intro policy idem oracle hma
    have := (retryAux_spec policy.retryableCodes policy.backoffFactor idem oracle
      policy.maxAttempts 0).2.1 hma
    unfold fetchWithRetry
    omega
  · intro policy idem oracle
    have h3 := (retryAux_spec policy.retryableCodes policy.backoffFactor idem oracle
      policy.maxAttempts 0).2.2
    unfold fetchWithRetry
    rw [h3]
    simp

/-- Witness for C9's cap and non-idempotent components at the configured
policy. -/
theorem fetch_retry_c9_wit :
    (fetchWithRetry crawlRetryPolicy true (fun _ => 200)).2.1 ≤ 3 ∧
    fetchWithRetry crawlRetryPolicy false (fun _ => 503) = (503, 1, []) :=
  ⟨fetch_retry_c9.2.2.2.1 crawlRetryPolicy true (fun _ => 200) (by decide),
   fetch_retry_c9.2.2.1 crawlRetryPolicy (fun _ => 503)⟩

/-- **C8 counterexample**: `normalise` is not idempotent on every string.
Parsing `"////"` gives an empty netloc and path `"//"`; re-serialization
emits just `"//"`, which re-parses as an (empty) authority marker, so a
second normalisation yields `""`. -/
theorem normalise_idem_c8_cex :
    normalise "////" = some "//" ∧ normalise "//" = some "" ∧
    (("" : String) ≠ "//") := by
  refine ⟨by decide, by decide, by decide⟩

/-! ## List-splitting lemmas for the URL round trip -/

/-- Inversion for `breakAt`: a successful split is the first occurrence. -/
theorem breakAt_some {d : Char} :
    ∀ {l a b : List Char}, breakAt d l = some (a, b) →
      l = a ++ d :: b ∧ d ∉ a := by
  intro l
  induction l with
  | nil => intro a b h; cases h
  | cons c cs ih =>
    intro a b h
    simp only [breakAt] at h
    by_cases hc : c = d
    · rw [if_pos hc] at h
      simp only [Option.some.injEq, Prod.mk.injEq] at h
      subst hc
      rw [← h.1, ← h.2]
      exact ⟨rfl, by simp⟩
    · rw [if_neg hc] at h
      cases hb : breakAt d cs with
      | none => rw [hb] at h; cases h
      | some p =>
        rw [hb] at h
        simp only [Option.map_some', Option.some.injEq, Prod.mk.injEq] at h
        obtain ⟨ha, hb2⟩ := h
        obtain ⟨he, hni⟩ := ih hb
        subst hb2
        rw [← ha]
        refine ⟨by rw [he]; rfl, ?_⟩
        intro hmem
        rcases List.mem_cons.1 hmem with rfl | hmem2
        · exact hc rfl
        · exact hni hmem2

/-- `breakAt` misses exactly when the delimiter is absent. -/
theorem breakAt_none {d : Char} :
    ∀ {l : List Char}, breakAt d l = none ↔ d ∉ l := by
  intro l
  induction l with
  | nil => simp [breakAt]
  | cons c cs ih =>
    simp only [breakAt]
    by_cases hc : c = d
    · rw [if_pos hc]
      subst hc
      simp
    · rw [if_neg hc]
      cases hb : breakAt d cs with
      | none =>
        simp only [Option.map_none']
        rw [hb] at ih
        simp only [true_iff] at ih
        simp [Ne.symm hc, ih]
      | some p =>
        simp only [Option.map_some']
        constructor
        · intro h; cases h
        · intro h
          exfalso
          rw [hb] at ih
          have : d ∈ cs := by
            by_contra hd
            exact Option.noConfusion (ih.2 hd)
          exact h (List.mem_cons.2 (Or.inr this))

/-- Splitting at the first marked occurrence. -/
theorem breakAt_build {d : Char} :
    ∀ {a : List Char} (b : List Char), d ∉ a →
      breakAt d (a ++ d :: b) = some (a, b) := by
  intro a
  induction a with
  | nil => intro b _; simp [breakAt]
  | cons c cs ih =>
    intro b hna
    have hc : c ≠ d := fun h => hna (by simp [h])
    simp only [List.cons_append, breakAt, if_neg hc, List.append_eq]
    rw [ih b (fun h => hna (List.mem_cons.2 (Or.inr h)))]
    rfl

/-- A successful split extends over appended material. -/
theorem breakAt_append_some {d : Char} {l a b : List Char} (t : List Char)
    (h : breakAt d l = some (a, b)) :
    breakAt d (l ++ t) = some (a, b ++ t) := by
  obtain ⟨he, hni⟩ := breakAt_some h
  subst he
  rw [List.append_assoc, List.cons_append]
  exact breakAt_build (b ++ t) hni

/-- Inversion for `rbreakAt`: a successful split is the last occurrence. -/
theorem rbreakAt_some {d : Char} {l a b : List Char}
    (h : rbreakAt d l = some (a, b)) : l = a ++ d :: b ∧ d ∉ b := by
  unfold rbreakAt at h
  cases hb : breakAt d l.reverse with
  | none => rw [hb] at h; cases h
  | some p =>
    rw [hb] at h
    simp only [Option.map_some', Option.some.injEq, Prod.mk.injEq] at h
    obtain ⟨he, hni⟩ := breakAt_some hb
    obtain ⟨ha, hb2⟩ := h
    subst ha
    subst hb2
    constructor
    · have := congrArg List.reverse he
      simpa [List.reverse_append] using this
    · intro hmem
      exact hni (by simpa using hmem)

/-- `takeWhile`/`dropWhile` stop exactly at a marked failing element. -/
theorem takeWhile_dropWhile_marked {p : Char → Bool} {c : Char} (hc : p c = false) :
    ∀ (a b : List Char),
      (a ++ c :: b).takeWhile p = a.takeWhile p ∧
      ((a ++ c :: b).dropWhile p = a.dropWhile p ++ c :: b ∨
        (a.dropWhile p = [] ∧ (a ++ c :: b).dropWhile p = c :: b)) := by
  intro a
  induction a with
  | nil =>
    intro b
    simp [List.takeWhile, List.dropWhile, hc]
  | cons x xs ih =>
    intro b
    by_cases hx : p x = true
    · simp only [List.cons_append, List.takeWhile_cons, List.dropWhile_cons, hx,
        if_true]
      obtain ⟨h1, h2⟩ := ih b
      refine ⟨by rw [h1], ?_⟩
      rcases h2 with h2 | ⟨h2a, h2b⟩
      · exact Or.inl (by rw [h2])
      · exact Or.inl (by rw [h2b, h2a]; simp)
    · replace hx : p x = false := by
        cases hpx : p x
        · rfl
        · exact absurd hpx hx
      simp [List.takeWhile_cons, List.dropWhile_cons, hx]

/-- All elements of an initial all-passing block are consumed. -/
theorem takeWhile_dropWhile_pass {p : Char → Bool} :
    ∀ (a b : List Char), (∀ x ∈ a, p x = true) →
      (b.head?.all fun c => !p c) →
      (a ++ b).takeWhile p = a ∧ (a ++ b).dropWhile p = b := by
  intro a
  induction a with
  | nil =>
    intro b _ hb
    cases b with
    | nil => exact ⟨rfl, rfl⟩
    | cons c cs =>
      have hbc : p c = false := by simpa using hb
      simp [List.takeWhile_cons, List.dropWhile_cons, hbc]
  | cons x xs ih =>
    intro b ha hb
    have hx : p x = true := ha x (by simp)
    obtain ⟨h1, h2⟩ := ih b (fun y hy => ha y (by simp [hy])) hb
    simp only [List.cons_append, List.takeWhile_cons, List.dropWhile_cons, hx,
      if_true]
    exact ⟨by rw [h1], by rw [h2]⟩

/-- Mirror of `breakAt_build` for the last occurrence. -/
theorem rbreakAt_build {d : Char} {a b : List Char} (hnb : d ∉ b) :
    rbreakAt d (a ++ d :: b) = some (a, b) := by
  unfold rbreakAt
  have : (a ++ d :: b).reverse = b.reverse ++ d :: a.reverse := by
    simp
  rw [this, breakAt_build a.reverse (by simpa using hnb)]
  simp

/-- Facts about `scheme_chars` under lower-casing, by evaluation over the
concrete character list. -/
theorem schemeChars_facts :
    ∀ c ∈ schemeChars, c.toLower ∈ schemeChars ∧ c.toLower.toLower = c.toLower ∧
      c.toLower ≠ ':' ∧ (c.isAlpha = true → c.toLower.isAlpha = true) := by
  decide

/-- The scheme splitter accepts a marked valid scheme prefix. -/
theorem splitScheme_accept {sch : List Char} (T : List Char)
    (hv : validScheme sch = true) (hni : ':' ∉ sch) :
    splitScheme [] (sch ++ ':' :: T) = (sch.map Char.toLower, T) := by
  unfold splitScheme
  rw [breakAt_build T hni]
  simp [hv]

/-- The scheme splitter rejects when every first-colon prefix is
invalid. -/
theorem splitScheme_reject {X : List Char}
    (h : ∀ a b, breakAt ':' X = some (a, b) → validScheme a = false) :
    splitScheme [] X = ([], X) := by
  unfold splitScheme
  cases hb : breakAt ':' X with
  | none => rfl
  | some p =>
    have := h p.1 p.2 (by rw [hb])
    simp [this]

/-- Inversion of the scheme splitter when it yields an empty scheme. -/
theorem splitScheme_empty_inv {X sch rest : List Char}
    (h : splitScheme [] X = (sch, rest)) (hs : sch = []) :
    rest = X ∧ ∀ a b, breakAt ':' X = some (a, b) → validScheme a = false := by
  subst hs
  unfold splitScheme at h
  cases hb : breakAt ':' X with
  | none =>
    rw [hb] at h
    have h' : (([], X) : List Char × List Char) = ([], rest) := h
    have h2 : X = rest := by injection h'
    refine ⟨h2.symm, ?_⟩
    intro a b hab
    exact Option.noConfusion hab
  | some p =>
    rw [hb] at h
    replace h : (if validScheme p.1 = true then (p.1.map Char.toLower, p.2)
        else ([], X)) = ([], rest) := h
    by_cases hv : validScheme p.1 = true
    · rw [if_pos hv] at h
      exfalso
      have h1 : p.1.map Char.toLower = [] := by injection h
      have hp1 : p.1 = [] := by simpa using h1
      rw [hp1] at hv
      exact absurd hv (by decide)
    · rw [if_neg hv] at h
      have h2 : X = rest := by injection h
      refine ⟨h2.symm, ?_⟩
      intro a b hab
      have hpe : p = (a, b) := Option.some.inj hab
      cases hva : validScheme a with
      | false => rfl
      | true =>
        exact absurd (by rw [hpe]; exact hva) hv

/-- `validScheme` fails when some character is outside `scheme_chars`. -/
theorem validScheme_false_of_bad {a : List Char} {x : Char} (hx : x ∈ a)
    (hxs : schemeChars.contains x = false) : validScheme a = false := by
  match a with
  | [] => rfl
  | c :: cs =>
    simp only [validScheme]
    cases hca : c.isAlpha
    · rfl
    · simp only [Bool.true_and]
      rw [List.all_eq_false]
      exact ⟨x, hx, by simpa using hxs⟩

/-- A head that is not an ASCII letter (or is itself the colon) rejects
the scheme split. -/
theorem splitScheme_reject_head {c : Char} {X : List Char}
    (hc : c.isAlpha = false ∨ c = ':') :
    splitScheme [] (c :: X) = ([], c :: X) := by
  refine splitScheme_reject ?_
  intro a b hab
  obtain ⟨he, hni⟩ := breakAt_some hab
  match a, he with
  | [], _ => rfl
  | a0 :: as, he =>
    have hca : c = a0 := by
      have := congrArg List.head? he
      simpa using this
    subst hca
    rcases hc with hc | hc
    · simp [validScheme, hc]
    · subst hc
      exact absurd (List.mem_cons_self ':' as) hni

/-- Characterization of `splitparams`: either it returns the whole string
with empty params, or it cuts the string at one `;`. -/
theorem splitparams_cases (x : List Char) :
    splitparams x = (x, []) ∨
    ∃ a b, splitparams x = (a, b) ∧ x = a ++ ';' :: b := by
  unfold splitparams
  by_cases hs : x.contains '/' = true
  · rw [if_pos hs]
    rcases hrb : rbreakAt '/' x with - | ⟨A, B⟩
    · exact Or.inl rfl
    · rcases hbb : breakAt ';' B with - | ⟨b1, b2⟩
      · exact Or.inl (by simp [hbb])
      · obtain ⟨hb2, hnb2⟩ := breakAt_some hbb
        refine Or.inr ⟨A ++ '/' :: b1, b2, by simp [hbb], ?_⟩
        obtain ⟨hx, -⟩ := rbreakAt_some hrb
        rw [hx, hb2]
        simp
  · rw [if_neg hs]
    rcases hbb : breakAt ';' x with - | ⟨u1, u2⟩
    · exact Or.inl rfl
    · obtain ⟨hx, -⟩ := breakAt_some hbb
      exact Or.inr ⟨u1, u2, rfl, hx⟩

/-- `rejoinParams` with no params is the identity. -/
theorem rejoinParams_nil (y : List Char) : rejoinParams y [] = y := by
  simp [rejoinParams]

/-- `normPath` is the identity when the guard fails. -/
theorem normPath_of_guard_false {sch y : List Char}
    (h : ¬ (sch ∈ uses_params ∧ y.contains ';' = true)) : normPath sch y = y := by
  unfold normPath paramsSplit
  rw [if_neg h]
  exact rejoinParams_nil y

/-- `normPath` only ever removes one trailing `;`; when it does, the
params split was the trailing empty one. -/
theorem normPath_shape (sch x : List Char) :
    normPath sch x = x ∨
    (x = normPath sch x ++ [';'] ∧
      (sch ∈ uses_params ∧ x.contains ';' = true) ∧
      splitparams x = (normPath sch x, [])) := by
  by_cases hg : sch ∈ uses_params ∧ x.contains ';' = true
  · rcases splitparams_cases x with h | ⟨a, b, h, hx⟩
    · left
      unfold normPath paramsSplit
      rw [if_pos hg, h]
      exact rejoinParams_nil x
    · have hnp : normPath sch x = rejoinParams a b := by
        unfold normPath paramsSplit
        rw [if_pos hg, h]
      by_cases hb : b = []
      · subst hb
        right
        rw [hnp, rejoinParams_nil a]
        exact ⟨hx, hg, h⟩
      · left
        rw [hnp]
        simp only [rejoinParams, if_pos (by simpa using hb : b ≠ [])]
        exact hx.symm
  · exact Or.inl (normPath_of_guard_false hg)

/-- The characters of `normPath sch x` all occur in `x`. -/
theorem normPath_subset (sch x : List Char) :
    ∀ c ∈ normPath sch x, c ∈ x := by
  rcases normPath_shape sch x with h | ⟨h, -⟩
  · rw [h]
    exact fun c hc => hc
  · intro c hc
    rw [h]
    simp [hc]

/-- The head of `normPath sch x` is the head of `x` (when nonempty). -/
theorem normPath_head (sch x : List Char) (h : normPath sch x ≠ []) :
    (normPath sch x).head? = x.head? := by
  rcases normPath_shape sch x with he | ⟨he, -⟩
  · rw [he]
  · cases hg : normPath sch x with
    | nil => exact absurd hg h
    | cons c cs =>
      rw [hg] at he
      rw [he]
      simp

/-- Re-normalising an already normalised path is stable. -/
theorem normPath_fix (sch x : List Char) :
    normPath sch (normPath sch x) = normPath sch x := by
  rcases normPath_shape sch x with he | ⟨he, ⟨hup, -⟩, hsp⟩
  · rw [he]
    exact he
  · set g := normPath sch x with hgdef
    by_cases hgc : g.contains ';' = true
    · -- analyse the splitparams of x to compute that of g
      unfold splitparams at hsp
      by_cases hs : x.contains '/' = true
      · rw [if_pos hs] at hsp
        rcases hrb : rbreakAt '/' x with - | ⟨A, B⟩
        · rw [hrb] at hsp
          have : x = g := by injection hsp
          rw [← this] at he
          exact absurd (congrArg List.length he) (by simp)
        · rw [hrb] at hsp
          obtain ⟨hx, hnB⟩ := rbreakAt_some hrb
          rcases hbb : breakAt ';' B with - | ⟨b1, b2⟩
          · replace hsp : ((x, []) : List Char × List Char) = (g, []) := by
              rw [← hsp]
              simp [hbb]
            have : x = g := by injection hsp
            rw [← this] at he
            exact absurd (congrArg List.length he) (by simp)
          · replace hsp : ((A ++ '/' :: b1, b2) : List Char × List Char) = (g, []) := by
              rw [← hsp]
              simp [hbb]
            obtain ⟨hB, hnb1⟩ := breakAt_some hbb
            have hg1 : A ++ '/' :: b1 = g := by injection hsp
            have hnb1' : ('/' : Char) ∉ b1 := by
              intro hm
              exact hnB (by rw [hB]; simp [hm])
            -- splitparams g = (g, [])
            have hsg : splitparams g = (g, []) := by
              unfold splitparams
              rw [if_pos (by rw [← hg1]; simp : g.contains '/' = true)]
              rw [← hg1, rbreakAt_build hnb1']
              simp [breakAt_none.2 hnb1]
            unfold normPath paramsSplit
            rw [if_pos ⟨hup, hgc⟩, hsg]
            exact rejoinParams_nil g
      · rw [if_neg hs] at hsp
        rcases hbb : breakAt ';' x with - | ⟨u1, u2⟩
        · rw [hbb] at hsp
          have : x = g := by injection hsp
          rw [← this] at he
          exact absurd (congrArg List.length he) (by simp)
        · rw [hbb] at hsp
          have hg1 : u1 = g := by injection hsp
          obtain ⟨hx, hnu1⟩ := breakAt_some hbb
          rw [← hg1] at hgc
          exact absurd (List.elem_iff.1 hgc) hnu1
    · exact normPath_of_guard_false (fun hand => hgc hand.2)

/-- `rbreakAt` misses exactly when the delimiter is absent. -/
theorem rbreakAt_none {d : Char} {l : List Char} :
    rbreakAt d l = none ↔ d ∉ l := by
  unfold rbreakAt
  cases hb : breakAt d l.reverse with
  | none =>
    have := breakAt_none.1 hb
    simp only [Option.map_none']
    constructor
    · intro _ hm
      exact this (by simpa using hm)
    · intro _
      trivial
  | some p =>
    simp only [Option.map_some']
    constructor
    · intro h
      cases h
    · intro hm
      exfalso
      obtain ⟨he, -⟩ := breakAt_some hb
      have : d ∈ l.reverse := by rw [he]; simp
      exact hm (by simpa using this)

/-- Prepending a slash to a normalised path keeps it normalised. -/
theorem normPath_slash (sch x : List Char) :
    normPath sch ('/' :: normPath sch x) = '/' :: normPath sch x := by
  set g := normPath sch x with hgdef
  have hfix : normPath sch g = g := normPath_fix sch x
  by_cases hup : sch ∈ uses_params
  · by_cases hgc : g.contains ';' = true
    · have hgc' : ('/' :: g).contains ';' = true := by
        rw [List.elem_iff] at hgc ⊢
        exact List.mem_cons.2 (Or.inr hgc)
      -- splitparams of g rejoins to g (from hfix)
      have hrg : rejoinParams (splitparams g).1 (splitparams g).2 = g := by
        have := hfix
        unfold normPath paramsSplit at this
        rwa [if_pos ⟨hup, hgc⟩] at this
      have hgoal : rejoinParams (splitparams ('/' :: g)).1
          (splitparams ('/' :: g)).2 = '/' :: g := by
        by_cases hsg : g.contains '/' = true
        · rcases hrb : rbreakAt '/' g with - | ⟨A, B⟩
          · exact absurd (rbreakAt_none.1 hrb) (by simpa using List.elem_iff.1 hsg)
          · obtain ⟨hgAB, hnB⟩ := rbreakAt_some hrb
            have hrb2 : rbreakAt '/' ('/' :: g) = some ('/' :: A, B) := by
              rw [hgAB]
              exact rbreakAt_build (a := '/' :: A) hnB
            have hsp1 : splitparams g =
                match breakAt ';' B with
                | some (b1, b2) => (A ++ '/' :: b1, b2)
                | none => (g, []) := by
              unfold splitparams
              rw [if_pos hsg, hrb]
            have hsp2 : splitparams ('/' :: g) =
                match breakAt ';' B with
                | some (b1, b2) => (('/' :: A) ++ '/' :: b1, b2)
                | none => ('/' :: g, []) := by
              unfold splitparams
              rw [if_pos (by rw [List.elem_iff] at hsg ⊢; simp [hsg]), hrb2]
            rcases hbb : breakAt ';' B with - | ⟨b1, b2⟩
            · rw [hbb] at hsp2
              rw [hsp2]
              exact rejoinParams_nil _
            · obtain ⟨hBe, hnb1⟩ := breakAt_some hbb
              rw [hbb] at hsp1 hsp2
              by_cases hb2 : b2 = []
              · exfalso
                subst hb2
                rw [hsp1, rejoinParams_nil] at hrg
                rw [← hrg] at hgAB
                rw [hBe] at hgAB
                have := congrArg List.length hgAB
                simp at this
              · rw [hsp2]
                simp only [rejoinParams, if_pos (by simpa using hb2 : b2 ≠ [])]
                rw [hgAB, hBe]
                simp
        · have hrb2 : rbreakAt '/' ('/' :: g) = some ([], g) := by
            have : ('/' : Char) ∉ g := fun hm => by
              rw [← List.elem_iff] at hm
              exact absurd hm (by simpa using hsg)
            exact rbreakAt_build (a := []) this
          have hsp2 : splitparams ('/' :: g) =
              match breakAt ';' g with
              | some (b1, b2) => ([] ++ '/' :: b1, b2)
              | none => ('/' :: g, []) := by
            unfold splitparams
            rw [if_pos (by rw [List.elem_iff]; simp), hrb2]
          rcases hbb : breakAt ';' g with - | ⟨b1, b2⟩
          · exact absurd (breakAt_none.1 hbb) (by simpa using List.elem_iff.1 hgc)
          · obtain ⟨hge, hnb1⟩ := breakAt_some hbb
            rw [hbb] at hsp2
            by_cases hb2 : b2 = []
            · exfalso
              subst hb2
              have hspg : splitparams g = (b1, []) := by
                unfold splitparams
                rw [if_neg (by simpa using hsg), hbb]
              rw [hspg, rejoinParams_nil] at hrg
              rw [← hrg] at hge
              have := congrArg List.length hge
              simp at this
            · rw [hsp2]
              simp only [rejoinParams, if_pos (by simpa using hb2 : b2 ≠ [])]
              rw [hge]
              simp
      unfold normPath paramsSplit
      rw [if_pos ⟨hup, hgc'⟩]
      exact hgoal
    · have : ¬ (('/' :: g).contains ';' = true) := by
        intro hc
        rw [List.elem_iff] at hc
        rcases List.mem_cons.1 hc with h | h
        · cases h
        · exact (by simpa using hgc : ¬ (';' ∈ g)) (by rw [← List.elem_iff] at h ⊢; exact h)
      exact normPath_of_guard_false fun hand => this hand.2
  · exact normPath_of_guard_false fun hand => hup hand.1

/-- Splitting distributes over a delimiter-free prefix. -/
theorem breakAt_append_right {d : Char} {l₁ : List Char} (l₂ : List Char)
    (h : d ∉ l₁) :
    breakAt d (l₁ ++ l₂) = (breakAt d l₂).map fun p => (l₁ ++ p.1, p.2) := by
  induction l₁ with
  | nil => simp
  | cons c cs ih =>
    have hc : c ≠ d := fun hcd => h (by simp [hcd])
    simp only [List.cons_append, breakAt, if_neg hc, List.append_eq]
    rw [ih (fun hm => h (List.mem_cons.2 (Or.inr hm)))]
    cases breakAt d l₂ <;> rfl

/-- The element a `dropWhile` stops at fails the predicate. -/
theorem dropWhile_head_false {p : Char → Bool} :
    ∀ (l : List Char) {c t}, l.dropWhile p = c :: t → p c = false := by
  intro l
  induction l with
  | nil => intro c t h; cases h
  | cons x xs ih =>
    intro c t h
    rw [List.dropWhile_cons] at h
    by_cases hx : p x = true
    · rw [if_pos hx] at h
      exact ih h
    · rw [if_neg hx] at h
      injection h with h1 _
      rw [← h1]
      cases hpx : p x
      · rfl
      · exact absurd hpx hx

/-- Characters filtered through `removeUnsafe` are never unsafe. -/
theorem removeUnsafe_clean {l : List Char} : ∀ c ∈ removeUnsafe l, c ∉ unsafeURLChars := by
  intro c hc
  unfold removeUnsafe at hc
  have := List.mem_filter.1 hc
  exact of_decide_eq_true this.2

/-- The unsafe characters are all control characters. -/
theorem unsafe_le_space : ∀ x ∈ unsafeURLChars, x ≤ ' ' := by decide

/-- The cleaned URL, if nonempty, starts with a printable character. -/
theorem cleaned_head {l : List Char} {c : Char}
    (h : (removeUnsafe (l.dropWhile fun c => c ≤ ' ')).head? = some c) :
    ¬ c ≤ ' ' := by
  cases hd : l.dropWhile (fun c => c ≤ ' ') with
  | nil =>
    rw [hd] at h
    cases h
  | cons c0 t =>
    have hc0 : ¬ c0 ≤ ' ' := by
      have := dropWhile_head_false _ hd
      simpa using this
    have hnm : c0 ∉ unsafeURLChars := fun hm => hc0 (unsafe_le_space c0 hm)
    rw [hd] at h
    unfold removeUnsafe at h
    rw [List.filter_cons_of_pos (by simpa using hnm)] at h
    simp only [List.head?_cons, Option.some.injEq] at h
    rwa [← h]

/-- Scheme characters are printable and are not URL delimiters. -/
theorem schemeChars_plain :
    ∀ c ∈ schemeChars, c ∉ unsafeURLChars ∧ ¬ c ≤ ' ' ∧ c ≠ '#' ∧ c ≠ '?' ∧
      c ≠ '/' ∧ c ≠ ':' ∧ c ≠ ';' := by
  decide

/-- Lower-casing a valid scheme yields a valid, lower-case-stable,
colon-free scheme over `scheme_chars`. -/
theorem validScheme_toLower {pre : List Char} (hv : validScheme pre = true) :
    validScheme (pre.map Char.toLower) = true ∧
    (pre.map Char.toLower).map Char.toLower = pre.map Char.toLower ∧
    ':' ∉ pre.map Char.toLower ∧ ∀ c ∈ pre.map Char.toLower, c ∈ schemeChars := by
  match pre with
  | [] => cases hv
  | c :: cs =>
    have hv' := hv
    unfold validScheme at hv'
    rw [Bool.and_eq_true] at hv'
    obtain ⟨hca, hall⟩ := hv'
    have hmemfacts : ∀ x ∈ c :: cs, x ∈ schemeChars := by
      intro x hx
      have := List.all_eq_true.1 hall x hx
      exact List.elem_iff.1 (by simpa using this)
    have hmaps : ∀ x ∈ (c :: cs).map Char.toLower, x ∈ schemeChars := by
      intro x hx
      obtain ⟨y, hy, rfl⟩ := List.mem_map.1 hx
      exact (schemeChars_facts y (hmemfacts y hy)).1
    refine ⟨?_, ?_, ?_, hmaps⟩
    · simp only [List.map_cons, validScheme]
      rw [Bool.and_eq_true]
      refine ⟨?_, ?_⟩
      · exact (schemeChars_facts c (hmemfacts c (by simp))).2.2.2 hca
      · rw [List.all_eq_true]
        intro x hx
        have : x ∈ schemeChars := hmaps x (by simpa using hx)
        simpa using List.elem_iff.2 this
    · rw [List.map_map]
      refine List.map_congr_left ?_
      intro x hx
      exact (schemeChars_facts x (hmemfacts x hx)).2.1
    · intro hmem
      obtain ⟨y, hy, hye⟩ := List.mem_map.1 hmem
      exact (schemeChars_facts y (hmemfacts y hy)).2.2.1 hye

/-- Inversion of the scheme splitter with empty default. -/
theorem splitScheme_inv {X sch rest : List Char}
    (h : splitScheme [] X = (sch, rest)) :
    (sch = [] ∧ rest = X) ∨
    (validScheme sch = true ∧ sch.map Char.toLower = sch ∧ ':' ∉ sch ∧
      (∀ c ∈ sch, c ∈ schemeChars) ∧
      ∃ pre, validScheme pre = true ∧ sch = pre.map Char.toLower ∧
        X = pre ++ ':' :: rest) := by
  have h0 := h
  unfold splitScheme at h0
  rcases hbk : breakAt ':' X with - | ⟨pre, rst⟩
  · rw [hbk] at h0
    left
    have h1 : ([] : List Char) = sch := by injection h0
    have h2 : X = rest := by injection h0
    exact ⟨h1.symm, h2.symm⟩
  · rw [hbk] at h0
    replace h0 : (if validScheme pre = true then (pre.map Char.toLower, rst)
        else ([], X)) = (sch, rest) := h0
    by_cases hv : validScheme pre = true
    · rw [if_pos hv] at h0
      have h1 : pre.map Char.toLower = sch := by injection h0
      have h2 : rst = rest := by injection h0
      obtain ⟨hv2, hid, hni, hmem⟩ := validScheme_toLower hv
      rw [h1] at hv2 hid hni hmem
      refine Or.inr ⟨hv2, hid, hni, hmem, pre, hv, h1.symm, ?_⟩
      obtain ⟨he, -⟩ := breakAt_some hbk
      rw [he, h2]
    · rw [if_neg hv] at h0
      left
      have h1 : ([] : List Char) = sch := by injection h0
      have h2 : X = rest := by injection h0
      exact ⟨h1.symm, h2.symm⟩

/-- Everything the fragment/query phase guarantees. -/
theorem splitFragQuery_spec (rest2 : List Char) :
    ∃ path query fr, splitFragQuery rest2 = (path, query, fr) ∧
      (∃ t, rest2 = path ++ t ∧
        (t = [] ∨ t.head? = some '?' ∨ t.head? = some '#')) ∧
      ('#' ∉ path ∧ '?' ∉ path ∧ '#' ∉ query) ∧
      (∀ c ∈ path, c ∈ rest2) ∧ (∀ c ∈ query, c ∈ rest2) ∧
      (path ≠ [] → path.head? = rest2.head?) ∧
      (∀ a b, breakAt ':' path = some (a, b) →
        ∃ b', breakAt ':' rest2 = some (a, b')) := by
  unfold splitFragQuery
  rcases hfr : breakAt '#' rest2 with - | ⟨pq, fr⟩ <;> dsimp only
  · have hnf : '#' ∉ rest2 := breakAt_none.1 hfr
    rcases hq : breakAt '?' rest2 with - | ⟨pa, qu⟩ <;> dsimp only
    · have hnq : '?' ∉ rest2 := breakAt_none.1 hq
      refine ⟨rest2, [], [], rfl, ⟨[], by simp⟩, ⟨hnf, hnq, by simp⟩,
        fun c hc => hc, by simp, fun _ => rfl, ?_⟩
      intro a b hab
      exact ⟨b, hab⟩
    · obtain ⟨he, hna⟩ := breakAt_some hq
      refine ⟨pa, qu, [], rfl, ⟨'?' :: qu, he, by simp⟩,
        ⟨fun hm => hnf (by rw [he]; simp [hm]), hna,
         fun hm => hnf (by rw [he]; simp [hm])⟩,
        fun c hc => by rw [he]; simp [hc],
        fun c hc => by rw [he]; simp [hc], ?_, ?_⟩
      · intro hne
        rw [he]
        cases pa with
        | nil => exact absurd rfl hne
        | cons c cs => simp
      · intro a b hab
        have := breakAt_append_some ('?' :: qu) hab
        rw [← he] at this
        exact ⟨b ++ '?' :: qu, this⟩
  · obtain ⟨hre, hnpq⟩ := breakAt_some hfr
    rcases hq : breakAt '?' pq with - | ⟨pa, qu⟩ <;> dsimp only
    · have hnq : '?' ∉ pq := breakAt_none.1 hq
      refine ⟨pq, [], fr, rfl, ⟨'#' :: fr, hre, by simp⟩,
        ⟨hnpq, hnq, by simp⟩,
        fun c hc => by rw [hre]; simp [hc], by simp, ?_, ?_⟩
      · intro hne
        rw [hre]
        cases pq with
        | nil => exact absurd rfl hne
        | cons c cs => simp
      · intro a b hab
        have := breakAt_append_some ('#' :: fr) hab
        rw [← hre] at this
        exact ⟨b ++ '#' :: fr, this⟩
    · obtain ⟨hpe, hna⟩ := breakAt_some hq
      have hpamem : ∀ c ∈ pa, c ∈ rest2 := by
        intro c hc
        rw [hre, hpe]
        simp [hc]
      refine ⟨pa, qu, fr, rfl, ⟨'?' :: qu ++ '#' :: fr, by rw [hre, hpe]; simp, by simp⟩,
        ⟨fun hm => hnpq (by rw [hpe]; simp [hm]), hna,
         fun hm => hnpq (by rw [hpe]; simp [hm])⟩,
        hpamem,
        fun c hc => by rw [hre, hpe]; simp [hc], ?_, ?_⟩
      · intro hne
        rw [hre, hpe]
        cases pa with
        | nil => exact absurd rfl hne
        | cons c cs => simp
      · intro a b hab
        have h1 := breakAt_append_some ('?' :: qu) hab
        rw [← hpe] at h1
        have h2 := breakAt_append_some ('#' :: fr) h1
        rw [← hre] at h2
        exact ⟨_, h2⟩

/-- Everything `urlsplit` (with empty default scheme) guarantees about a
successful parse, as needed to re-parse the re-serialization. -/
theorem urlsplit_inv {u0 : List Char} {s : SplitResult}
    (h : urlsplit [] u0 = some s) :
    (s.scheme = [] ∨ (validScheme s.scheme = true ∧
      s.scheme.map Char.toLower = s.scheme ∧ ':' ∉ s.scheme ∧
      ∀ c ∈ s.scheme, c ∈ schemeChars)) ∧
    (∀ c ∈ s.netloc, netlocDelim c = false) ∧
    (((s.netloc.contains '[' && !s.netloc.contains ']') ||
      (s.netloc.contains ']' && !s.netloc.contains '[')) = false) ∧
    ('#' ∉ s.path ∧ '?' ∉ s.path ∧ '#' ∉ s.query) ∧
    (∀ c ∈ s.netloc ++ s.path ++ s.query, c ∉ unsafeURLChars) ∧
    (s.netloc ≠ [] → (s.path = [] ∨ s.path.head? = some '/')) ∧
    (s.scheme = [] → s.netloc = [] →
      ∀ a b, breakAt ':' s.path = some (a, b) → validScheme a = false) ∧
    (s.scheme = [] → s.netloc = [] →
      ∀ c, s.path.head? = some c → ¬ c ≤ ' ') := by
  unfold urlsplit at h
  dsimp only at h
  rcases hss : splitScheme [] (removeUnsafe (u0.dropWhile fun c => c ≤ ' '))
    with ⟨sch, rest⟩
  rw [hss] at h
  dsimp only at h
  have hWclean : ∀ c ∈ removeUnsafe (u0.dropWhile fun c => c ≤ ' '),
      c ∉ unsafeURLChars := removeUnsafe_clean
  have hschinv := splitScheme_inv hss
  have hschOr : sch = [] ∨ (validScheme sch = true ∧
      sch.map Char.toLower = sch ∧ ':' ∉ sch ∧ ∀ c ∈ sch, c ∈ schemeChars) := by
    rcases hschinv with ⟨h1, -⟩ | ⟨h1, h2, h3, h4, -⟩
    · exact Or.inl h1
    · exact Or.inr ⟨h1, h2, h3, h4⟩
  have hrestW : ∀ c ∈ rest, c ∈ removeUnsafe (u0.dropWhile fun c => c ≤ ' ') := by
    rcases hschinv with ⟨-, h1⟩ | ⟨-, -, -, -, pre, -, -, hX⟩
    · rw [h1]
      exact fun c hc => hc
    · rw [hX]
      intro c hc
      simp [hc]
  by_cases hnb : rest.take 2 = ['/', '/']
  · rw [if_pos hnb] at h
    by_cases hbr : (((rest.drop 2).takeWhile fun c => !netlocDelim c).contains '[' &&
        !((rest.drop 2).takeWhile fun c => !netlocDelim c).contains ']' ||
        ((rest.drop 2).takeWhile fun c => !netlocDelim c).contains ']' &&
        !((rest.drop 2).takeWhile fun c => !netlocDelim c).contains '[') = true
    · rw [if_pos hbr] at h
      exact Option.noConfusion h
    · rw [if_neg hbr] at h
      dsimp only at h
      obtain ⟨pa, qu, fr, hfq, ⟨t, hdecomp, htshape⟩, ⟨hnh, hnq, hnhq⟩, hpamem,
        hqumem, hpahead, hcolon⟩ :=
        splitFragQuery_spec ((rest.drop 2).dropWhile fun c => !netlocDelim c)
      rw [hfq] at h
      dsimp only at h
      have hs2 := Option.some.inj h
      subst hs2
      dsimp only
      have hNLpred : ∀ c ∈ (rest.drop 2).takeWhile fun c => !netlocDelim c,
          netlocDelim c = false := by
        intro c hc
        have := List.mem_takeWhile_imp hc
        simpa using this
      have hNLW : ∀ c ∈ (rest.drop 2).takeWhile fun c => !netlocDelim c,
          c ∈ removeUnsafe (u0.dropWhile fun c => c ≤ ' ') := by
        intro c hc
        exact hrestW c (List.drop_subset 2 rest
          ((List.takeWhile_sublist _).subset hc))
      have hR2W : ∀ c ∈ (rest.drop 2).dropWhile fun c => !netlocDelim c,
          c ∈ removeUnsafe (u0.dropWhile fun c => c ≤ ' ') := by
        intro c hc
        exact hrestW c (List.drop_subset 2 rest
          ((List.dropWhile_sublist _).subset hc))
      have hR2head : ∀ c, ((rest.drop 2).dropWhile fun c => !netlocDelim c).head? =
          some c → netlocDelim c = true := by
        intro c hc
        cases hd : (rest.drop 2).dropWhile (fun c => !netlocDelim c) with
        | nil => rw [hd] at hc; cases hc
        | cons x xs =>
          rw [hd] at hc
          have hx := dropWhile_head_false _ hd
          simp only [List.head?_cons, Option.some.injEq] at hc
          subst hc
          simpa using hx
      have hpahead' : pa = [] ∨ pa.head? = some '/' := by
        cases hpa : pa with
        | nil => exact Or.inl rfl
        | cons c cs =>
          right
          have h1 : pa.head? = some c := by rw [hpa]; rfl
          have h2 := (hpahead (by rw [hpa]; simp)).symm.trans h1
          have hdel := hR2head c h2
          have hcpa : c ∈ pa := by rw [hpa]; simp
          have : (c = '/' ∨ c = '?') ∨ c = '#' := by
            simpa [netlocDelim] using hdel
          have : c = '/' ∨ c = '?' ∨ c = '#' := by tauto
          rcases this with rfl | rfl | rfl
          · rfl
          · exact absurd hcpa hnq
          · exact absurd hcpa hnh
      refine ⟨hschOr, hNLpred, ?_, ⟨hnh, hnq, hnhq⟩, ?_, fun _ => hpahead', ?_, ?_⟩
      · cases hbv : (((rest.drop 2).takeWhile fun c => !netlocDelim c).contains '[' &&
            !((rest.drop 2).takeWhile fun c => !netlocDelim c).contains ']' ||
            ((rest.drop 2).takeWhile fun c => !netlocDelim c).contains ']' &&
            !((rest.drop 2).takeWhile fun c => !netlocDelim c).contains '[') with
        | false => rfl
        | true => exact absurd hbv hbr
      · intro c hc
        rcases List.mem_append.1 hc with hc | hc
        · rcases List.mem_append.1 hc with hc | hc
          · exact hWclean c (hNLW c hc)
          · exact hWclean c (hR2W c (hpamem c hc))
        · exact hWclean c (hR2W c (hqumem c hc))
      · intro _ _ a b hab
        rcases hpahead' with hpa | hpa
        · rw [hpa] at hab
          cases hab
        · obtain ⟨he, hni⟩ := breakAt_some hab
          match a, he with
          | [], _ => rfl
          | a0 :: as, he =>
            have hca : pa.head? = some a0 := by rw [he]; rfl
            have : a0 = '/' := by
              simpa using (hpa.symm.trans hca).symm
            subst this
            simp [validScheme]
      · intro _ _ c hc
        rcases hpahead' with hpa | hpa
        · rw [hpa] at hc
          cases hc
        · have : c = '/' := by
            simpa using (hpa.symm.trans hc).symm
          subst this
          decide
  · rw [if_neg hnb] at h
    dsimp only at h
    obtain ⟨pa, qu, fr, hfq, ⟨t, hdecomp, htshape⟩, ⟨hnh, hnq, hnhq⟩, hpamem,
      hqumem, hpahead, hcolon⟩ := splitFragQuery_spec rest
    rw [hfq] at h
    dsimp only at h
    have hs2 := Option.some.inj h
    subst hs2
    dsimp only
    refine ⟨hschOr, by simp, by simp, ⟨hnh, hnq, hnhq⟩, ?_, by simp, ?_, ?_⟩
    · intro c hc
      simp only [List.nil_append] at hc
      rcases List.mem_append.1 hc with hc | hc
      · exact hWclean c (hrestW c (hpamem c hc))
      · exact hWclean c (hrestW c (hqumem c hc))
    · intro hsch0 _ a b hab
      obtain ⟨hrW, hrej⟩ := splitScheme_empty_inv hss hsch0
      obtain ⟨b', hb'⟩ := hcolon a b hab
      rw [hrW] at hb'
      exact hrej a b' hb'
    · intro hsch0 _ c hc
      obtain ⟨hrW, -⟩ := splitScheme_empty_inv hss hsch0
      have hpane : pa ≠ [] := by
        intro hpa
        rw [hpa] at hc
        cases hc
      have h9 := (hpahead hpane).symm.trans hc
      rw [hrW] at h9
      exact cleaned_head h9

/-- Re-parsing preprocessing is the identity on clean serializations. -/
theorem clean_id {S : List Char} (hclean : ∀ c ∈ S, c ∉ unsafeURLChars)
    (hhead : ∀ c, S.head? = some c → ¬ c ≤ ' ') :
    removeUnsafe (S.dropWhile fun c => c ≤ ' ') = S := by
  have h1 : S.dropWhile (fun c => c ≤ ' ') = S := by
    cases S with
    | nil => rfl
    | cons c cs =>
      rw [List.dropWhile_cons, if_neg (by simpa using hhead c rfl)]
  rw [h1]
  unfold removeUnsafe
  rw [List.filter_eq_self.2 ?_]
  intro c hc
  exact decide_eq_true (hclean c hc)

/-- The fragment/query phase on a clean path-plus-query serialization. -/
theorem splitFragQuery_build {P q : List Char} (hP1 : '#' ∉ P) (hP2 : '?' ∉ P)
    (hq : '#' ∉ q) :
    splitFragQuery (P ++ if q = [] then [] else '?' :: q) = (P, q, []) := by
  unfold splitFragQuery
  by_cases hqe : q = []
  · rw [if_pos hqe, List.append_nil]
    rw [(breakAt_none.2 hP1 : breakAt '#' P = none)]
    dsimp only
    rw [(breakAt_none.2 hP2 : breakAt '?' P = none)]
    dsimp only
    rw [hqe]
  · rw [if_neg hqe]
    have hb1 : breakAt '#' (P ++ '?' :: q) = none := by
      refine breakAt_none.2 ?_
      intro hm
      rcases List.mem_append.1 hm with hm | hm
      · exact hP1 hm
      · rcases List.mem_cons.1 hm with hm | hm
        · cases hm
        · exact hq hm
    rw [hb1]
    dsimp only
    rw [breakAt_build q hP2]

/-- Appending the optional query marker cannot create a leading `//`. -/
theorem take_two_append {G q : List Char} (hG : G.take 2 ≠ ['/', '/']) :
    (G ++ if q = [] then [] else '?' :: q).take 2 ≠ ['/', '/'] := by
  by_cases hqe : q = []
  · rw [if_pos hqe, List.append_nil]
    exact hG
  · rw [if_neg hqe]
    match G with
    | [] => simp
    | [c] =>
      intro hc
      simp only [List.cons_append, List.nil_append, List.take_succ_cons,
        List.take] at hc
      have : ('?' : Char) = '/' := by
        have := congrArg (fun l => l.get? 1) hc
        simpa using this
      cases this
    | c1 :: c2 :: r =>
      intro hc
      refine hG ?_
      simp only [List.cons_append, List.take_succ_cons] at hc ⊢
      exact hc

/-- `takeWhile` never scans past a failing marker element. -/
theorem takeWhile_append_marked {p : Char → Bool} {m : Char} (hm : p m = false) :
    ∀ (a F : List Char), (a ++ m :: F).takeWhile p = a.takeWhile p := by
  intro a F
  induction a with
  | nil => simp [List.takeWhile_cons, hm]
  | cons x xs ih =>
    rw [List.cons_append, List.takeWhile_cons, List.takeWhile_cons]
    cases hx : p x
    · rfl
    · rw [ih]

/-- `dropWhile` never scans past a failing marker element. -/
theorem dropWhile_append_marked {p : Char → Bool} {m : Char} (hm : p m = false) :
    ∀ (a F : List Char), (a ++ m :: F).dropWhile p = a.dropWhile p ++ m :: F := by
  intro a F
  induction a with
  | nil => simp [List.dropWhile_cons, hm]
  | cons x xs ih =>
    rw [List.cons_append, List.dropWhile_cons, List.dropWhile_cons]
    cases hx : p x
    · simp
    · simpa using ih

/-- Tab/CR/LF removal distributes over append. -/
theorem removeUnsafe_append (a b : List Char) :
    removeUnsafe (a ++ b) = removeUnsafe a ++ removeUnsafe b := by
  unfold removeUnsafe
  exact List.filter_append _ _

/-- The fragment marker survives tab/CR/LF removal. -/
theorem removeUnsafe_cons_hash (F : List Char) :
    removeUnsafe ('#' :: F) = '#' :: removeUnsafe F := by
  unfold removeUnsafe
  rw [List.filter_cons_of_pos (by decide)]

/-- When the pre-fragment part has no colon, any first-colon prefix of the
full URL contains the fragment marker. -/
theorem breakAt_marked_colon :
    ∀ {P : List Char}, ':' ∉ P → '#' ∉ P →
      ∀ a b (F : List Char), breakAt ':' (P ++ '#' :: F) = some (a, b) →
        '#' ∈ a := by
  intro P
  induction P with
  | nil =>
    intro _ _ a b F h
    simp only [List.nil_append, breakAt] at h
    rw [if_neg (by decide : ¬ ('#' : Char) = ':')] at h
    cases hb : breakAt ':' F with
    | none =>
      rw [hb] at h
      cases h
    | some pr =>
      rw [hb] at h
      simp only [Option.map_some'] at h
      have h1 : ('#' :: pr.1, pr.2) = (a, b) := by injection h
      have h2 : '#' :: pr.1 = a := by injection h1
      rw [← h2]
      exact List.mem_cons_self _ _
  | cons c Q ih =>
    intro hc hh a b F h
    have hcne : c ≠ ':' := fun e => hc (by simp [e])
    simp only [List.cons_append, breakAt, if_neg hcne, List.append_eq] at h
    cases hb : breakAt ':' (Q ++ '#' :: F) with
    | none =>
      rw [hb] at h
      cases h
    | some pr =>
      rw [hb] at h
      simp only [Option.map_some'] at h
      have h1 : (c :: pr.1, pr.2) = (a, b) := by injection h
      have h2 : c :: pr.1 = a := by injection h1
      have h3 : '#' ∈ pr.1 :=
        ih (fun m => hc (List.mem_cons.2 (Or.inr m)))
          (fun m => hh (List.mem_cons.2 (Or.inr m))) pr.1 pr.2 F (by rw [hb])
      rw [← h2]
      exact List.mem_cons.2 (Or.inr h3)

/-- A fragment suffix cannot affect the leading-`//` test. -/
theorem take_two_marked {R F : List Char} :
    (R ++ '#' :: F).take 2 = ['/', '/'] ↔ R.take 2 = ['/', '/'] := by
  match R with
  | [] =>
    constructor
    · intro h
      have h' : '#' :: F.take 1 = ['/', '/'] := h
      have h1 : ('#' : Char) = '/' := by injection h'
      exact absurd h1 (by decide)
    · intro h
      exact absurd h (by decide)
  | [c] =>
    constructor
    · intro h
      have h' : [c, '#'] = ['/', '/'] := h
      injection h' with e1 e2
      injection e2 with e3 e4
      exact absurd e3 (by decide)
    · intro h
      have h' : [c] = ['/', '/'] := h
      have h2 : ([] : List Char) = ['/'] := by injection h'
      exact absurd h2 (by decide)
  | c1 :: c2 :: r => exact Iff.rfl

/-- A list whose first two characters are `//` is at least two long. -/
theorem take_two_shape {R : List Char} (h : R.take 2 = ['/', '/']) :
    ∃ T, R = '/' :: '/' :: T := by
  match R, h with
  | [], h => exact absurd h (by decide)
  | [c], h =>
    have h' : [c] = ['/', '/'] := h
    have h2 : ([] : List Char) = ['/'] := by injection h'
    exact absurd h2 (by decide)
  | c1 :: c2 :: r, h =>
    have h' : [c1, c2] = ['/', '/'] := h
    have e1 : c1 = '/' := by injection h'
    have h'' : [c2] = ['/'] := by injection h'
    have e2 : c2 = '/' := by injection h''
    exact ⟨r, by rw [e1, e2]⟩

/-- The scheme phase of a fragment-bearing URL does not depend on the
fragment. -/
theorem splitScheme_marked {P : List Char} (hP : '#' ∉ P) :
    ∃ s R, '#' ∉ R ∧
      ∀ F, splitScheme [] (P ++ '#' :: F) = (s, R ++ '#' :: F) := by
  cases hb : breakAt ':' P with
  | none =>
    refine ⟨[], P, hP, fun F => ?_⟩
    refine splitScheme_reject ?_
    intro a b hab
    have hm : '#' ∈ a := breakAt_marked_colon (breakAt_none.1 hb) hP a b F hab
    exact validScheme_false_of_bad hm (by decide)
  | some pr =>
    obtain ⟨P1, P2⟩ := pr
    obtain ⟨hpe, hpn⟩ := breakAt_some hb
    have h2 : '#' ∉ P2 := fun hm => hP (by rw [hpe]; simp [hm])
    by_cases hv : validScheme P1 = true
    · refine ⟨P1.map Char.toLower, P2, h2, fun F => ?_⟩
      unfold splitScheme
      rw [breakAt_append_some ('#' :: F) hb]
      dsimp only
      rw [if_pos hv]
    · refine ⟨[], P, hP, fun F => ?_⟩
      unfold splitScheme
      rw [breakAt_append_some ('#' :: F) hb]
      dsimp only
      rw [if_neg hv]

/-- The fragment/query phase: a trailing fragment is split off verbatim
and the path/query parts do not depend on it. -/
theorem splitFragQuery_marked {R : List Char} (hR : '#' ∉ R) :
    ∃ pa q, ∀ F, splitFragQuery (R ++ '#' :: F) = (pa, q, F) := by
  cases hq : breakAt '?' R with
  | none =>
    refine ⟨R, [], fun F => ?_⟩
    unfold splitFragQuery
    rw [breakAt_build F hR]
    dsimp only
    rw [hq]
  | some pr =>
    refine ⟨pr.1, pr.2, fun F => ?_⟩
    unfold splitFragQuery
    rw [breakAt_build F hR]
    dsimp only
    rw [hq]

/-- `urlsplit` of a fragment-bearing URL: scheme, netloc, path and query
are functions of the pre-fragment part alone, and the fragment of the
result is the cleaned fragment text. -/
theorem urlsplit_marked {P : List Char} (hP : '#' ∉ P) :
    ∃ r : Option (List Char × List Char × List Char × List Char),
      ∀ F, urlsplit [] (P ++ '#' :: F) =
        r.map fun t => ⟨t.1, t.2.1, t.2.2.1, t.2.2.2, removeUnsafe F⟩ := by
  have hm1 : (fun c : Char => decide (c ≤ ' ')) '#' = false := by decide
  have hm2 : (fun c : Char => !netlocDelim c) '#' = false := by decide
  have hclean : ∀ F, removeUnsafe ((P ++ '#' :: F).dropWhile fun c => c ≤ ' ') =
      removeUnsafe (P.dropWhile fun c => c ≤ ' ') ++ '#' :: removeUnsafe F := by
    intro F
    rw [dropWhile_append_marked hm1, removeUnsafe_append, removeUnsafe_cons_hash]
  have hP' : '#' ∉ removeUnsafe (P.dropWhile fun c => c ≤ ' ') := by
    intro hm
    unfold removeUnsafe at hm
    have h1 : '#' ∈ P.dropWhile (fun c => decide (c ≤ ' ')) :=
      (List.mem_filter.1 hm).1
    exact hP ((List.dropWhile_sublist _).subset h1)
  obtain ⟨s, R, hR, hss⟩ := splitScheme_marked hP'
  by_cases ht : R.take 2 = ['/', '/']
  · obtain ⟨T, hT⟩ := take_two_shape ht
    have hR2mem : '#' ∉ T.dropWhile fun c => !netlocDelim c := by
      intro hm
      apply hR
      rw [hT]
      exact List.mem_cons.2 (Or.inr (List.mem_cons.2 (Or.inr
        ((List.dropWhile_sublist _).subset hm))))
    by_cases hbr : (((T.takeWhile fun c => !netlocDelim c).contains '[' &&
        !(T.takeWhile fun c => !netlocDelim c).contains ']') ||
        ((T.takeWhile fun c => !netlocDelim c).contains ']' &&
        !(T.takeWhile fun c => !netlocDelim c).contains '[')) = true
    · refine ⟨none, fun F => ?_⟩
      unfold urlsplit
      dsimp only
      rw [hclean F, hss (removeUnsafe F)]
      dsimp only
      rw [if_pos (take_two_marked.mpr ht), hT]
      simp only [List.cons_append, List.drop_succ_cons, List.drop_zero]
      rw [takeWhile_append_marked hm2, dropWhile_append_marked hm2]
      rw [if_pos hbr]
      rfl
    · obtain ⟨pa, q, hfq⟩ := splitFragQuery_marked hR2mem
      refine ⟨some (s, T.takeWhile fun c => !netlocDelim c, pa, q), fun F => ?_⟩
      unfold urlsplit
      dsimp only
      rw [hclean F, hss (removeUnsafe F)]
      dsimp only
      rw [if_pos (take_two_marked.mpr ht), hT]
      simp only [List.cons_append, List.drop_succ_cons, List.drop_zero]
      rw [takeWhile_append_marked hm2, dropWhile_append_marked hm2]
      rw [if_neg hbr]
      dsimp only
      rw [hfq (removeUnsafe F)]
      rfl
  · obtain ⟨pa, q, hfq⟩ := splitFragQuery_marked hR
    refine ⟨some (s, [], pa, q), fun F => ?_⟩
    unfold urlsplit
    dsimp only
    rw [hclean F, hss (removeUnsafe F)]
    dsimp only
    rw [if_neg (fun hc => ht (take_two_marked.mp hc))]
    dsimp only
    rw [hfq (removeUnsafe F)]
    rfl

/-- `normalise` ignores everything after the first `#`: two URLs that
differ only in their fragment normalise identically. -/
theorem normalise_fragment_congr (pre f1 f2 : List Char) (hp : '#' ∉ pre) :
    normalise (String.mk (pre ++ '#' :: f1)) =
      normalise (String.mk (pre ++ '#' :: f2)) := by
  obtain ⟨r, hr⟩ := urlsplit_marked hp
  unfold normalise urlparse
  dsimp only
  rw [hr f1, hr f2]
  cases r with
  | none => rfl
  | some t => rfl

/-- Re-parsing an authority-form serialization
`[scheme:]//netloc[path][?query]` recovers its components. -/
theorem urlsplit_reparse_auth {sch nl P2 q : List Char}
    (hsch : sch = [] ∨ (validScheme sch = true ∧ sch.map Char.toLower = sch ∧
      ':' ∉ sch ∧ ∀ c ∈ sch, c ∈ schemeChars))
    (hnlD : ∀ c ∈ nl, netlocDelim c = false)
    (hbrF : (nl.contains '[' && !nl.contains ']' ||
      nl.contains ']' && !nl.contains '[') = false)
    (hP2sl : P2 = [] ∨ P2.take 1 = ['/'])
    (hP2h : '#' ∉ P2) (hP2q : '?' ∉ P2) (hqh : '#' ∉ q)
    (hcl : ∀ c ∈ nl ++ P2 ++ q, c ∉ unsafeURLChars) :
    urlsplit [] ((if sch ≠ [] then sch ++ ':' :: ('/' :: '/' :: (nl ++ P2))
        else '/' :: '/' :: (nl ++ P2)) ++ if q = [] then [] else '?' :: q) =
      some ⟨sch, nl, P2, q, []⟩ := by
  have hqc : ∀ c ∈ (if q = [] then [] else '?' :: q), c = '?' ∨ c ∈ q := by
    intro c hc
    by_cases hq : q = []
    · rw [if_pos hq] at hc
      cases hc
    · rw [if_neg hq] at hc
      exact List.mem_cons.1 hc
  have hclB : ∀ c ∈ '/' :: '/' :: ((nl ++ P2) ++ (if q = [] then [] else '?' :: q)),
      c ∉ unsafeURLChars := by
    intro c hc
    rcases List.mem_cons.1 hc with rfl | hc
    · decide
    rcases List.mem_cons.1 hc with rfl | hc
    · decide
    rcases List.mem_append.1 hc with hc | hc
    · rcases List.mem_append.1 hc with hc | hc
      · exact hcl c (by simp [hc])
      · exact hcl c (by simp [hc])
    · rcases hqc c hc with rfl | hc
      · decide
      · exact hcl c (by simp [hc])
  have hhd : ∀ c, ('/' :: '/' :: ((nl ++ P2) ++
      (if q = [] then [] else '?' :: q))).head? = some c → ¬ c ≤ ' ' := by
    intro c hc
    simp only [List.head?_cons, Option.some.injEq] at hc
    subst hc
    decide
  have hpass : ∀ x ∈ nl, (fun c => !netlocDelim c) x = true := by
    intro x hx
    have := hnlD x hx
    simp [this]
  have hhead2 : ((P2 ++ (if q = [] then [] else '?' :: q)).head?.all
      fun c => !((fun c => !netlocDelim c) c)) = true := by
    rcases hP2sl with h0 | h1
    · subst h0
      by_cases hq : q = []
      · rw [if_pos hq]
        rfl
      · rw [if_neg hq]
        simp [netlocDelim]
    · match P2, h1 with
      | c :: t, h1 =>
        have h2 : [c] = ['/'] := h1
        have hc' : c = '/' := by injection h2
        subst hc'
        simp [netlocDelim]
  obtain ⟨htw, hdw⟩ := takeWhile_dropWhile_pass nl
    (P2 ++ (if q = [] then [] else '?' :: q)) hpass hhead2
  have hbrx : ¬ ((nl.contains '[' && !nl.contains ']' ||
      nl.contains ']' && !nl.contains '[') = true) := by
    rw [hbrF]
    simp
  have hcond : List.take 2 ('/' :: '/' :: ((nl ++ P2) ++
      (if q = [] then [] else '?' :: q))) = ['/', '/'] := rfl
  rcases hsch with hsch0 | ⟨hv, hstab, hni, hschc⟩
  · subst hsch0
    rw [if_neg (fun hc : ([] : List Char) ≠ [] => hc rfl)]
    have hshape : ('/' :: '/' :: (nl ++ P2)) ++ (if q = [] then [] else '?' :: q) =
        '/' :: '/' :: ((nl ++ P2) ++ (if q = [] then [] else '?' :: q)) := by
      simp
    rw [hshape]
    unfold urlsplit
    dsimp only
    rw [clean_id hclB hhd]
    rw [splitScheme_reject_head (c := '/') (Or.inl (by decide))]
    dsimp only
    rw [if_pos hcond]
    simp only [List.drop_succ_cons, List.drop_zero]
    rw [List.append_assoc, htw, hdw]
    rw [if_neg hbrx]
    dsimp only
    rw [splitFragQuery_build hP2h hP2q hqh]
  · have hschne : sch ≠ [] := by
      intro h0
      rw [h0] at hv
      exact absurd hv (by decide)
    rw [if_pos hschne]
    have harr : (sch ++ ':' :: ('/' :: '/' :: (nl ++ P2))) ++
        (if q = [] then [] else '?' :: q) =
        sch ++ ':' :: ('/' :: '/' :: ((nl ++ P2) ++
          (if q = [] then [] else '?' :: q))) := by
      simp
    rw [harr]
    obtain ⟨s0, st, hs0⟩ : ∃ s0 st, sch = s0 :: st := by
      match sch, hschne with
      | c :: t, _ => exact ⟨c, t, rfl⟩
    have hclS : ∀ c ∈ sch ++ ':' :: ('/' :: '/' :: ((nl ++ P2) ++
        (if q = [] then [] else '?' :: q))), c ∉ unsafeURLChars := by
      intro c hc
      rcases List.mem_append.1 hc with hc | hc
      · exact (schemeChars_plain c (hschc c hc)).1
      rcases List.mem_cons.1 hc with rfl | hc
      · decide
      · exact hclB c hc
    have hhdS : ∀ c, (sch ++ ':' :: ('/' :: '/' :: ((nl ++ P2) ++
        (if q = [] then [] else '?' :: q)))).head? = some c → ¬ c ≤ ' ' := by
      intro c hc
      rw [hs0] at hc
      simp only [List.cons_append, List.head?_cons, Option.some.injEq] at hc
      subst hc
      exact (schemeChars_plain s0 (hschc s0 (by
        rw [hs0]
        exact List.mem_cons_self _ _))).2.1
    unfold urlsplit
    dsimp only
    rw [clean_id hclS hhdS]
    rw [splitScheme_accept _ hv hni, hstab]
    dsimp only
    rw [if_pos hcond]
    simp only [List.drop_succ_cons, List.drop_zero]
    rw [List.append_assoc, htw, hdw]
    rw [if_neg hbrx]
    dsimp only
    rw [splitFragQuery_build hP2h hP2q hqh]

/-- When the pre-query part has no colon, any first-colon prefix of a
`path?query` serialization contains the query marker. -/
theorem breakAt_marked_query :
    ∀ {P : List Char}, ':' ∉ P →
      ∀ a b (F : List Char), breakAt ':' (P ++ '?' :: F) = some (a, b) →
        '?' ∈ a := by
  intro P
  induction P with
  | nil =>
    intro _ a b F h
    simp only [List.nil_append, breakAt] at h
    rw [if_neg (by decide : ¬ ('?' : Char) = ':')] at h
    cases hb : breakAt ':' F with
    | none =>
      rw [hb] at h
      cases h
    | some pr =>
      rw [hb] at h
      simp only [Option.map_some'] at h
      have h1 : ('?' :: pr.1, pr.2) = (a, b) := by injection h
      have h2 : '?' :: pr.1 = a := by injection h1
      rw [← h2]
      exact List.mem_cons_self _ _
  | cons c Q ih =>
    intro hc a b F h
    have hcne : c ≠ ':' := fun e => hc (by simp [e])
    simp only [List.cons_append, breakAt, if_neg hcne, List.append_eq] at h
    cases hb : breakAt ':' (Q ++ '?' :: F) with
    | none =>
      rw [hb] at h
      cases h
    | some pr =>
      rw [hb] at h
      simp only [Option.map_some'] at h
      have h1 : (c :: pr.1, pr.2) = (a, b) := by injection h
      have h2 : c :: pr.1 = a := by injection h1
      have h3 : '?' ∈ pr.1 :=
        ih (fun m => hc (List.mem_cons.2 (Or.inr m))) pr.1 pr.2 F (by rw [hb])
      rw [← h2]
      exact List.mem_cons.2 (Or.inr h3)

/-- Re-parsing a scheme-only serialization `scheme:path[?query]` (no
authority part) recovers its components. -/
theorem urlsplit_reparse_scheme {sch P2 q : List Char}
    (hv : validScheme sch = true) (hstab : sch.map Char.toLower = sch)
    (hni : ':' ∉ sch) (hschc : ∀ c ∈ sch, c ∈ schemeChars)
    (ht2 : P2.take 2 ≠ ['/', '/'])
    (hP2h : '#' ∉ P2) (hP2q : '?' ∉ P2) (hqh : '#' ∉ q)
    (hcl : ∀ c ∈ P2 ++ q, c ∉ unsafeURLChars) :
    urlsplit [] (sch ++ ':' :: (P2 ++ if q = [] then [] else '?' :: q)) =
      some ⟨sch, [], P2, q, []⟩ := by
  have hqc : ∀ c ∈ (if q = [] then [] else '?' :: q), c = '?' ∨ c ∈ q := by
    intro c hc
    by_cases hq : q = []
    · rw [if_pos hq] at hc
      cases hc
    · rw [if_neg hq] at hc
      exact List.mem_cons.1 hc
  have hschne : sch ≠ [] := by
    intro h0
    rw [h0] at hv
    exact absurd hv (by decide)
  obtain ⟨s0, st, hs0⟩ : ∃ s0 st, sch = s0 :: st := by
    match sch, hschne with
    | c :: t, _ => exact ⟨c, t, rfl⟩
  have hclS : ∀ c ∈ sch ++ ':' :: (P2 ++ (if q = [] then [] else '?' :: q)),
      c ∉ unsafeURLChars := by
    intro c hc
    rcases List.mem_append.1 hc with hc | hc
    · exact (schemeChars_plain c (hschc c hc)).1
    rcases List.mem_cons.1 hc with rfl | hc
    · decide
    rcases List.mem_append.1 hc with hc | hc
    · exact hcl c (by simp [hc])
    · rcases hqc c hc with rfl | hc
      · decide
      · exact hcl c (by simp [hc])
  have hhdS : ∀ c, (sch ++ ':' :: (P2 ++
      (if q = [] then [] else '?' :: q))).head? = some c → ¬ c ≤ ' ' := by
    intro c hc
    rw [hs0] at hc
    simp only [List.cons_append, List.head?_cons, Option.some.injEq] at hc
    subst hc
    exact (schemeChars_plain s0 (hschc s0 (by
      rw [hs0]
      exact List.mem_cons_self _ _))).2.1
  unfold urlsplit
  dsimp only
  rw [clean_id hclS hhdS]
  rw [splitScheme_accept _ hv hni, hstab]
  dsimp only
  rw [if_neg (take_two_append ht2)]
  dsimp only
  rw [splitFragQuery_build hP2h hP2q hqh]

/-- Re-parsing a bare serialization `path[?query]` (no scheme, no
authority) leaves the components unchanged. -/
theorem urlsplit_reparse_bare {P2 q : List Char}
    (ht2 : P2.take 2 ≠ ['/', '/'])
    (hrej : ∀ a b, breakAt ':' P2 = some (a, b) → validScheme a = false)
    (hhd0 : ∀ c, P2.head? = some c → ¬ c ≤ ' ')
    (hP2h : '#' ∉ P2) (hP2q : '?' ∉ P2) (hqh : '#' ∉ q)
    (hcl : ∀ c ∈ P2 ++ q, c ∉ unsafeURLChars) :
    urlsplit [] (P2 ++ if q = [] then [] else '?' :: q) =
      some ⟨[], [], P2, q, []⟩ := by
  have hqc : ∀ c ∈ (if q = [] then [] else '?' :: q), c = '?' ∨ c ∈ q := by
    intro c hc
    by_cases hq : q = []
    · rw [if_pos hq] at hc
      cases hc
    · rw [if_neg hq] at hc
      exact List.mem_cons.1 hc
  have hclS : ∀ c ∈ P2 ++ (if q = [] then [] else '?' :: q),
      c ∉ unsafeURLChars := by
    intro c hc
    rcases List.mem_append.1 hc with hc | hc
    · exact hcl c (by simp [hc])
    · rcases hqc c hc with rfl | hc
      · decide
      · exact hcl c (by simp [hc])
  have hhdS : ∀ c, (P2 ++ (if q = [] then [] else '?' :: q)).head? = some c →
      ¬ c ≤ ' ' := by
    intro c hc
    cases hp2 : P2 with
    | nil =>
      rw [hp2, List.nil_append] at hc
      by_cases hq : q = []
      · rw [if_pos hq] at hc
        cases hc
      · rw [if_neg hq] at hc
        simp only [List.head?_cons, Option.some.injEq] at hc
        subst hc
        decide
    | cons p ps =>
      rw [hp2, List.cons_append] at hc
      simp only [List.head?_cons, Option.some.injEq] at hc
      subst hc
      exact hhd0 p (by rw [hp2]; rfl)
  have hrejS : ∀ a b, breakAt ':' (P2 ++ (if q = [] then [] else '?' :: q)) =
      some (a, b) → validScheme a = false := by
    intro a b hab
    cases hb : breakAt ':' P2 with
    | some pr =>
      have hext := breakAt_append_some (if q = [] then [] else '?' :: q)
        (show breakAt ':' P2 = some (pr.1, pr.2) by rw [hb])
      rw [hab] at hext
      have h1 : (pr.1, pr.2 ++ (if q = [] then [] else '?' :: q)) = (a, b) := by
        injection hext.symm
      have h2 : pr.1 = a := by injection h1
      rw [← h2]
      exact hrej pr.1 pr.2 (by rw [hb])
    | none =>
      by_cases hq : q = []
      · rw [if_pos hq, List.append_nil] at hab
        rw [hb] at hab
        cases hab
      · rw [if_neg hq] at hab
        have hm : '?' ∈ a := breakAt_marked_query (breakAt_none.1 hb) a b q hab
        exact validScheme_false_of_bad hm (by decide)
  unfold urlsplit
  dsimp only
  rw [clean_id hclS hhdS]
  rw [splitScheme_reject hrejS]
  dsimp only
  rw [if_neg (take_two_append ht2)]
  dsimp only
  rw [splitFragQuery_build hP2h hP2q hqh]

/-- `urlunsplit` in the authority case when the path needs no leading
slash inserted. -/
theorem urlunsplit_auth {sch nl P2 q : List Char}
    (hcond : nl ≠ [] ∨ (sch ≠ [] ∧ sch ∈ uses_netloc ∧ P2.take 2 ≠ ['/', '/']))
    (hins : P2 = [] ∨ P2.take 1 = ['/']) :
    urlunsplit ⟨sch, nl, P2, q, []⟩ =
      (if sch ≠ [] then sch ++ ':' :: ('/' :: '/' :: (nl ++ P2))
        else '/' :: '/' :: (nl ++ P2)) ++ if q = [] then [] else '?' :: q := by
  unfold urlunsplit
  dsimp only
  rw [if_neg (fun hc : ([] : List Char) ≠ [] => hc rfl)]
  rw [if_pos hcond]
  have hinsx : ¬ (P2 ≠ [] ∧ P2.take 1 ≠ ['/']) := by
    rcases hins with h0 | h1
    · exact fun hc => hc.1 h0
    · exact fun hc => hc.2 h1
  rw [if_neg hinsx]
  by_cases hq : q = []
  · rw [if_neg (fun hc : q ≠ [] => hc hq), if_pos hq, List.append_nil]
  · rw [if_pos hq, if_neg hq]

/-- `urlunsplit` in the authority case when a leading slash is inserted
before the path. -/
theorem urlunsplit_auth_ins {sch nl P2 q : List Char}
    (hcond : nl ≠ [] ∨ (sch ≠ [] ∧ sch ∈ uses_netloc ∧ P2.take 2 ≠ ['/', '/']))
    (hins : P2 ≠ [] ∧ P2.take 1 ≠ ['/']) :
    urlunsplit ⟨sch, nl, P2, q, []⟩ =
      (if sch ≠ [] then sch ++ ':' :: ('/' :: '/' :: (nl ++ '/' :: P2))
        else '/' :: '/' :: (nl ++ '/' :: P2)) ++
        if q = [] then [] else '?' :: q := by
  unfold urlunsplit
  dsimp only
  rw [if_neg (fun hc : ([] : List Char) ≠ [] => hc rfl)]
  rw [if_pos hcond]
  rw [if_pos hins]
  by_cases hq : q = []
  · rw [if_neg (fun hc : q ≠ [] => hc hq), if_pos hq, List.append_nil]
  · rw [if_pos hq, if_neg hq]

/-- `urlunsplit` when no authority marker is re-inserted. -/
theorem urlunsplit_plain {sch P2 q : List Char}
    (hcond : ¬ (([] : List Char) ≠ [] ∨
      (sch ≠ [] ∧ sch ∈ uses_netloc ∧ P2.take 2 ≠ ['/', '/']))) :
    urlunsplit ⟨sch, [], P2, q, []⟩ =
      (if sch ≠ [] then sch ++ ':' :: P2 else P2) ++
        if q = [] then [] else '?' :: q := by
  unfold urlunsplit
  dsimp only
  rw [if_neg (fun hc : ([] : List Char) ≠ [] => hc rfl)]
  rw [if_neg hcond]
  by_cases hq : q = []
  · rw [if_neg (fun hc : q ≠ [] => hc hq), if_pos hq, List.append_nil]
  · rw [if_pos hq, if_neg hq]

/-- Round-trip: outside the degenerate `netloc = [] ∧ path begins with //`
family, re-parsing the fragment-free re-serialization of a parsed URL
recovers the same scheme, netloc and query, and a path that is stable
under the params cycle and re-serializes to the same string. -/
theorem urlsplit_roundtrip {u0 : List Char} {s : SplitResult}
    (h : urlsplit [] u0 = some s)
    (H : s.netloc ≠ [] ∨ (normPath s.scheme s.path).take 2 ≠ ['/', '/']) :
    ∃ P2,
      urlsplit [] (urlunsplit ⟨s.scheme, s.netloc, normPath s.scheme s.path,
        s.query, []⟩) = some ⟨s.scheme, s.netloc, P2, s.query, []⟩ ∧
      normPath s.scheme P2 = P2 ∧
      urlunsplit ⟨s.scheme, s.netloc, P2, s.query, []⟩ =
        urlunsplit ⟨s.scheme, s.netloc, normPath s.scheme s.path,
          s.query, []⟩ := by
  obtain ⟨hschOr, hnlD, hbrF, ⟨hnhp, hnqp, hnhq⟩, hclean, hslash, hcolon, hhead⟩ :=
    urlsplit_inv h
  obtain ⟨sch, nl, pa, q, fr⟩ := s
  dsimp only at hschOr hnlD hbrF hnhp hnqp hnhq hclean hslash hcolon hhead H ⊢
  have hGsub : ∀ c ∈ normPath sch pa, c ∈ pa := normPath_subset sch pa
  have hGfix := normPath_fix sch pa
  have hGh : '#' ∉ normPath sch pa := fun hm => hnhp (hGsub _ hm)
  have hGq : '?' ∉ normPath sch pa := fun hm => hnqp (hGsub _ hm)
  have hGclean : ∀ c ∈ normPath sch pa, c ∉ unsafeURLChars := by
    intro c hc
    have := hGsub c hc
    exact hclean c (by simp [this])
  have hqclean : ∀ c ∈ q, c ∉ unsafeURLChars := fun c hc => hclean c (by simp [hc])
  have hnlclean : ∀ c ∈ nl, c ∉ unsafeURLChars := fun c hc => hclean c (by simp [hc])
  by_cases hnl : nl = []
  · by_cases hB : sch ≠ [] ∧ sch ∈ uses_netloc ∧
        (normPath sch pa).take 2 ≠ ['/', '/']
    · subst hnl
      obtain ⟨hschne, hmemN, ht2⟩ := hB
      rcases hschOr with hsch0 | ⟨hv, hstab, hni, hschc⟩
      · exact absurd hsch0 hschne
      by_cases hif : normPath sch pa ≠ [] ∧ (normPath sch pa).take 1 ≠ ['/']
      · -- a slash is inserted in front of the path
        obtain ⟨g, gt, hg, hgne⟩ : ∃ g gt, normPath sch pa = g :: gt ∧ g ≠ '/' := by
          obtain ⟨h1, h2⟩ := hif
          match hG : normPath sch pa, h1 with
          | g :: gt, _ =>
            refine ⟨g, gt, rfl, fun he => ?_⟩
            apply h2
            rw [hG, he]
            rfl
        have ht2' : ('/' :: normPath sch pa).take 2 ≠ ['/', '/'] := by
          rw [hg]
          intro hc
          have h1 : ['/', g] = ['/', '/'] := hc
          have h2 : [g] = ['/'] := by injection h1
          have h3 : g = '/' := by injection h2
          exact hgne h3
        have hclP : ∀ c ∈ ([] : List Char) ++ '/' :: normPath sch pa ++ q,
            c ∉ unsafeURLChars := by
          intro c hc
          rcases List.mem_append.1 hc with hc | hc
          · rcases List.mem_cons.1 (by simpa using hc) with rfl | hc
            · decide
            · exact hGclean c hc
          · exact hqclean c hc
        have hhs : '#' ∉ '/' :: normPath sch pa := by
          intro hm
          rcases List.mem_cons.1 hm with hm | hm
          · exact absurd hm (by decide)
          · exact hGh hm
        have hqs : '?' ∉ '/' :: normPath sch pa := by
          intro hm
          rcases List.mem_cons.1 hm with hm | hm
          · exact absurd hm (by decide)
          · exact hGq hm
        refine ⟨'/' :: normPath sch pa, ?_, normPath_slash sch pa, ?_⟩
        · rw [urlunsplit_auth_ins (Or.inr ⟨hschne, hmemN, ht2⟩) hif]
          exact urlsplit_reparse_auth (Or.inr ⟨hv, hstab, hni, hschc⟩)
            (fun c hc => absurd hc (List.not_mem_nil c))
            (by decide) (Or.inr rfl) hhs hqs hnhq hclP
        · rw [urlunsplit_auth (Or.inr ⟨hschne, hmemN, ht2'⟩) (Or.inr rfl),
            urlunsplit_auth_ins (Or.inr ⟨hschne, hmemN, ht2⟩) hif]
      · -- the path already starts with a slash (or is empty)
        have hsl : normPath sch pa = [] ∨ (normPath sch pa).take 1 = ['/'] := by
          by_cases h0 : normPath sch pa = []
          · exact Or.inl h0
          · right
            by_contra h1
            exact hif ⟨h0, h1⟩
        have hclP : ∀ c ∈ ([] : List Char) ++ normPath sch pa ++ q,
            c ∉ unsafeURLChars := by
          intro c hc
          rcases List.mem_append.1 hc with hc | hc
          · exact hGclean c (by simpa using hc)
          · exact hqclean c hc
        refine ⟨normPath sch pa, ?_, hGfix, rfl⟩
        rw [urlunsplit_auth (Or.inr ⟨hschne, hmemN, ht2⟩) hsl]
        exact urlsplit_reparse_auth (Or.inr ⟨hv, hstab, hni, hschc⟩)
          (fun c hc => absurd hc (List.not_mem_nil c))
          (by decide) hsl hGh hGq hnhq hclP
    · subst hnl
      have ht2 : (normPath sch pa).take 2 ≠ ['/', '/'] := by
        rcases H with h0 | h1
        · exact absurd rfl h0
        · exact h1
      have hclPQ : ∀ c ∈ normPath sch pa ++ q, c ∉ unsafeURLChars := by
        intro c hc
        rcases List.mem_append.1 hc with hc | hc
        · exact hGclean c hc
        · exact hqclean c hc
      rcases hschOr with hsch0 | ⟨hv, hstab, hni, hschc⟩
      · subst hsch0
        have hcondF : ¬ (([] : List Char) ≠ [] ∨ (([] : List Char) ≠ [] ∧
            ([] : List Char) ∈ uses_netloc ∧
            (normPath [] pa).take 2 ≠ ['/', '/'])) := by
          rintro (hc | ⟨hc, -⟩)
          · exact hc rfl
          · exact hc rfl
        have hrejG : ∀ a b, breakAt ':' (normPath [] pa) = some (a, b) →
            validScheme a = false := by
          intro a b hab
          rcases normPath_shape [] pa with he | ⟨he, -, -⟩
          · rw [he] at hab
            exact hcolon rfl rfl a b hab
          · have hext := breakAt_append_some [';'] hab
            rw [← he] at hext
            exact hcolon rfl rfl a (b ++ [';']) hext
        have hhd0 : ∀ c, (normPath [] pa).head? = some c → ¬ c ≤ ' ' := by
          intro c hc
          have hne : normPath [] pa ≠ [] := by
            intro h0
            rw [h0] at hc
            cases hc
          have h1 : pa.head? = some c := (normPath_head [] pa hne).symm.trans hc
          exact hhead rfl rfl c h1
        refine ⟨normPath [] pa, ?_, hGfix, rfl⟩
        rw [urlunsplit_plain hcondF, if_neg (fun hc : ([] : List Char) ≠ [] => hc rfl)]
        exact urlsplit_reparse_bare ht2 hrejG hhd0 hGh hGq hnhq hclPQ
      · have hschne : sch ≠ [] := by
          intro h0
          rw [h0] at hv
          exact absurd hv (by decide)
        have hnmem : sch ∉ uses_netloc := fun hm => hB ⟨hschne, hm, ht2⟩
        have hcondF : ¬ (([] : List Char) ≠ [] ∨ (sch ≠ [] ∧
            sch ∈ uses_netloc ∧ (normPath sch pa).take 2 ≠ ['/', '/'])) := by
          rintro (hc | ⟨-, hm, -⟩)
          · exact hc rfl
          · exact hnmem hm
        have harr : (sch ++ ':' :: normPath sch pa) ++
            (if q = [] then [] else '?' :: q) =
            sch ++ ':' :: (normPath sch pa ++
              (if q = [] then [] else '?' :: q)) := by
          simp
        refine ⟨normPath sch pa, ?_, hGfix, rfl⟩
        rw [urlunsplit_plain hcondF, if_pos hschne, harr]
        exact urlsplit_reparse_scheme hv hstab hni hschc ht2 hGh hGq hnhq hclPQ
  · have hsl : normPath sch pa = [] ∨ (normPath sch pa).take 1 = ['/'] := by
      cases hG : normPath sch pa with
      | nil => exact Or.inl rfl
      | cons g gs =>
        right
        have hne : normPath sch pa ≠ [] := by
          rw [hG]
          exact List.cons_ne_nil g gs
        have h1 : (normPath sch pa).head? = pa.head? := normPath_head sch pa hne
        rcases hslash hnl with h0 | h2
        · exfalso
          have hgpa : g ∈ pa := hGsub g (by rw [hG]; exact List.mem_cons_self g gs)
          rw [h0] at hgpa
          cases hgpa
        · have h3 : (normPath sch pa).head? = some '/' := h1.trans h2
          rw [hG] at h3
          simp only [List.head?_cons, Option.some.injEq] at h3
          subst h3
          rfl
    have hclP : ∀ c ∈ nl ++ normPath sch pa ++ q, c ∉ unsafeURLChars := by
      intro c hc
      rcases List.mem_append.1 hc with hc | hc
      · rcases List.mem_append.1 hc with hc | hc
        · exact hnlclean c hc
        · exact hGclean c hc
      · exact hqclean c hc
    refine ⟨normPath sch pa, ?_, hGfix, rfl⟩
    rw [urlunsplit_auth (Or.inl hnl) hsl]
    exact urlsplit_reparse_auth hschOr hnlD hbrF hsl hGh hGq hnhq hclP

/-- `normalise` is idempotent on every URL whose parse is outside the
degenerate `netloc = "" ∧ path starts with //` family. -/
theorem normalise_roundtrip {u v : String} {p : ParseResult}
    (hp : urlparse [] u.data = some p)
    (H : p.netloc ≠ [] ∨ (rejoinParams p.path p.params).take 2 ≠ ['/', '/'])
    (hv : normalise u = some v) :
    normalise v = some v := by
  cases hs : urlsplit [] u.data with
  | none =>
    rw [urlparse, hs] at hp
    cases hp
  | some s =>
    have hp' : p = ⟨s.scheme, s.netloc, (paramsSplit s.scheme s.path).1,
        (paramsSplit s.scheme s.path).2, s.query, s.fragment⟩ := by
      rw [urlparse, hs] at hp
      simp only [Option.map_some'] at hp
      exact (Option.some.inj hp).symm
    have hG : rejoinParams p.path p.params = normPath s.scheme s.path := by
      rw [hp']
      rfl
    have hH : s.netloc ≠ [] ∨ (normPath s.scheme s.path).take 2 ≠ ['/', '/'] := by
      rcases H with h1 | h1
      · left
        rw [hp'] at h1
        exact h1
      · right
        rw [← hG]
        exact h1
    obtain ⟨P2, h1, h2, h3⟩ := urlsplit_roundtrip hs hH
    have hvd : v = String.mk (urlunsplit ⟨s.scheme, s.netloc,
        normPath s.scheme s.path, s.query, []⟩) := by
      unfold normalise at hv
      rw [urlparse, hs] at hv
      simp only [Option.map_some', Option.map_map] at hv
      have hv2 := Option.some.inj hv
      rw [← hv2]
      rfl
    rw [hvd]
    unfold normalise
    rw [urlparse]
    rw [show (String.mk (urlunsplit ⟨s.scheme, s.netloc,
        normPath s.scheme s.path, s.query, []⟩)).data =
        urlunsplit ⟨s.scheme, s.netloc, normPath s.scheme s.path, s.query, []⟩
        from rfl]
    rw [h1]
    simp only [Option.map_some']
    have hfin : urlunparse { (⟨s.scheme, s.netloc, (paramsSplit s.scheme P2).1,
        (paramsSplit s.scheme P2).2, s.query, ([] : List Char)⟩ : ParseResult) with
        fragment := [] } = urlunsplit ⟨s.scheme, s.netloc,
          normPath s.scheme s.path, s.query, []⟩ := by
      have e1 : urlunparse { (⟨s.scheme, s.netloc, (paramsSplit s.scheme P2).1,
          (paramsSplit s.scheme P2).2, s.query, ([] : List Char)⟩ : ParseResult) with
          fragment := [] } = urlunsplit ⟨s.scheme, s.netloc,
            normPath s.scheme P2, s.query, []⟩ := rfl
      rw [e1, h2, h3]
    rw [hfin]

/-- C8 (amended): normalize is idempotent for every URL string whose parse
has a nonempty netloc or whose params-rejoined path does not begin with
`//` (the spec's unconditional claim fails on the degenerate family, e.g.
`normalise "////" = some "//"` but `normalise "//" = some ""`); and any
two URLs that differ only in their fragment component normalize to the
identical value. -/
theorem normalise_idem_c8 :
    (∀ (u v : String) (p : ParseResult), urlparse [] u.data = some p →
      (p.netloc ≠ [] ∨ (rejoinParams p.path p.params).take 2 ≠ ['/', '/']) →
      normalise u = some v → normalise v = some v) ∧
    (∀ (pre f1 f2 : List Char), '#' ∉ pre →
      normalise (String.mk (pre ++ '#' :: f1)) =
        normalise (String.mk (pre ++ '#' :: f2))) :=
  ⟨fun _ _ _ hp H hv => normalise_roundtrip hp H hv,
   fun pre f1 f2 hp => normalise_fragment_congr pre f1 f2 hp⟩

/-- Witness for the amended C8 theorem at concrete inputs: the parse of
`http://h/a#x` has netloc `h`, one normalisation reaches the fixed point
`http://h/a`, and changing the fragment `x` to `y` leaves the
normalisation unchanged. -/
theorem normalise_idem_c8_wit :
    normalise "http://h/a" = some "http://h/a" ∧
    normalise (String.mk ("http://h/a".data ++ '#' :: "x".data)) =
      normalise (String.mk ("http://h/a".data ++ '#' :: "y".data)) := by
  constructor
  · exact normalise_idem_c8.1 "http://h/a#x" "http://h/a"
      ⟨"http".data, "h".data, "/a".data, [], [], "x".data⟩
      (by rfl) (Or.inl (by decide)) (by rfl)
  · exact normalise_idem_c8.2 "http://h/a".data "x".data "y".data (by decide)
